import Mathlib

/-!
# Obsidian auto-replace plugin: rule resolution and substitution engine

A shallow embedding of `src/main.js` (class `AutoReplacePlugin`) and theorems about it.

JavaScript strings are sequences of UTF-16 code units; they are modelled as `List Nat`.
`.length`, `.slice`, `.startsWith` and `!==` act on code units.  The regular expressions of
the bulk pass carry the flags `giu`, so they read the subject string code point by code
point and compare characters after `Canonicalize` (Unicode simple case folding).  The case
folding table and `String.prototype.toLowerCase` are built-ins of the host language; the
embedding takes them as the parameters `canon` and `toLowerCase`.
-/

namespace AutoReplace

/-! ## Strings -/

/-- A JavaScript string value: its UTF-16 code units, in order. -/
abbrev JSString := List Nat

/-- UTF-16 code units of one Unicode scalar value. -/
def encodeCodePoint (c : Nat) : JSString :=
  if c < 0x10000 then [c]
  else [0xD800 + (c - 0x10000) / 0x400, 0xDC00 + (c - 0x10000) % 0x400]

/-- UTF-16 code units of a text literal (used to write down concrete inputs). -/
def utf16 (s : String) : JSString :=
  go s.toList
where
  /-- Encode scalar value after scalar value. -/
  go : List Char → JSString
    | [] => []
    | c :: cs => encodeCodePoint c.toNat ++ go cs

/-- The test `0xD800 ≤ u ≤ 0xDBFF` (leading surrogate). -/
def isHighSurrogate (u : Nat) : Bool := decide (0xD800 ≤ u) && decide (u ≤ 0xDBFF)

/-- The test `0xDC00 ≤ u ≤ 0xDFFF` (trailing surrogate). -/
def isLowSurrogate (u : Nat) : Bool := decide (0xDC00 ≤ u) && decide (u ≤ 0xDFFF)

/-- A character read by a Unicode-mode regular expression: the code point together with the
one or two code units of the subject string it was read from. -/
structure CodePointAt where
  /-- The code point value. -/
  codePoint : Nat
  /-- The code units it occupies in the string. -/
  units : JSString
deriving DecidableEq, Repr

/-- The built-in `StringToCodePoints`: a leading surrogate directly followed by a trailing
surrogate is one character, every other code unit is a character of its own. -/
def stringToCodePoints : JSString → List CodePointAt
  | [] => []
  | [u] => [⟨u, [u]⟩]
  | hi :: lo :: rest =>
    if isHighSurrogate hi && isLowSurrogate lo then
      ⟨0x10000 + (hi - 0xD800) * 0x400 + (lo - 0xDC00), [hi, lo]⟩ :: stringToCodePoints rest
    else
      ⟨hi, [hi]⟩ :: stringToCodePoints (lo :: rest)

/-- Code units of a run of characters of the subject string. -/
def unitsOf : List CodePointAt → JSString
  | [] => []
  | c :: cs => c.units ++ unitsOf cs

/-- The method `String.prototype.startsWith`. -/
def startsWith (s p : JSString) : Bool := p.isPrefixOf s

/-- The call `s.slice(0, n)` for `0 ≤ n`. -/
def sliceTo (s : JSString) (n : Nat) : JSString := s.take n

/-! ## Rules and settings -/

/-- One entry of `settings.replacements`. -/
structure Rule where
  /-- Field `abbr`. -/
  abbr : JSString
  /-- Field `expanded`. -/
  expanded : JSString
  /-- Field `folder` (`""` means everywhere). -/
  folder : JSString
  /-- Field `manualOnly`. -/
  manualOnly : Bool
deriving DecidableEq, Repr

/-- The plugin settings object. -/
structure Settings where
  /-- Field `autoReplace`. -/
  autoReplace : Bool
  /-- Field `replacements`. -/
  replacements : List Rule
deriving DecidableEq, Repr

/-- The constant `DEFAULT_SETTINGS`. -/
def DEFAULT_SETTINGS : Settings := { autoReplace := true, replacements := [] }

/-- The active file, of which only `path` is read. -/
structure TFile where
  /-- Field `path`. -/
  path : JSString
deriving DecidableEq, Repr

/-! ## `getBestRule` -/

/-- Loop state of `getBestRule`: the variables `bestRule` and `maxFolderMatch`. -/
structure BestState where
  /-- Variable `bestRule` (`none` is `null`). -/
  bestRule : Option Rule
  /-- Variable `maxFolderMatch`. -/
  maxFolderMatch : Int
deriving DecidableEq, Repr

/-- One iteration of the `for … of` loop in `getBestRule`. -/
def getBestRuleStep (toLowerCase : JSString → JSString) (word filePath : JSString)
    (isAutoMode : Bool) (st : BestState) (rule : Rule) : BestState :=
  if toLowerCase rule.abbr ≠ toLowerCase word then st
  else if isAutoMode && rule.manualOnly then st
  else if rule.folder ≠ [] then
    if startsWith filePath rule.folder && decide ((rule.folder.length : Int) > st.maxFolderMatch) then
      { bestRule := some rule, maxFolderMatch := rule.folder.length }
    else st
  else if st.maxFolderMatch = -1 then
    { st with bestRule := some rule }
  else st

/-- The method `getBestRule(word, filePath, isAutoMode)` over `settings.replacements`. -/
def getBestRule (toLowerCase : JSString → JSString) (replacements : List Rule)
    (word filePath : JSString) (isAutoMode : Bool) : Option Rule :=
  (replacements.foldl (getBestRuleStep toLowerCase word filePath isAutoMode)
    { bestRule := none, maxFolderMatch := -1 }).bestRule

/-! ## Character classes of the regular expressions -/

/-- The class escape `\s`: the code points of `WhiteSpace` and `LineTerminator`. -/
def whiteSpaceChars : List Nat :=
  [0x09, 0x0A, 0x0B, 0x0C, 0x0D, 0x20, 0xA0, 0x1680,
   0x2000, 0x2001, 0x2002, 0x2003, 0x2004, 0x2005, 0x2006, 0x2007, 0x2008, 0x2009, 0x200A,
   0x2028, 0x2029, 0x202F, 0x205F, 0x3000, 0xFEFF]

/-- Membership in `\s`. -/
def isWhiteSpace (c : Nat) : Bool := decide (c ∈ whiteSpaceChars)

/-- The class `[\s.,!?;:]` tested on the character before the caret by `handleReplacement`. -/
def triggerChars : List Nat := whiteSpaceChars ++ [0x2E, 0x2C, 0x21, 0x3F, 0x3B, 0x3A]

/-- The test `/[\s.,!?;:]/.test(lastChar)` on a one-unit string. -/
def isTriggerChar (u : Nat) : Bool := decide (u ∈ triggerChars)

/-- The class `[\s.,!?;:\n()\[\]{}<>]` of the bulk pass, member by member. -/
def boundaryChars : List Nat :=
  whiteSpaceChars ++
    [0x2E, 0x2C, 0x21, 0x3F, 0x3B, 0x3A, 0x0A, 0x28, 0x29, 0x5B, 0x5D, 0x7B, 0x7D, 0x3C, 0x3E]

/-- Class matching under the flags `iu`: a character matches when its canonical form is
the canonical form of some member of the class. -/
def isBoundary (canon : Nat → Nat) (c : Nat) : Bool :=
  boundaryChars.any fun a => canon a == canon c

/-- Unicode simple case folding on Basic Latin and on the Cyrillic range U+0400 to U+042F,
the identity elsewhere.  It instantiates `canon` in the concrete examples. -/
def simpleFold (c : Nat) : Nat :=
  if 0x41 ≤ c ∧ c ≤ 0x5A then c + 0x20
  else if 0x410 ≤ c ∧ c ≤ 0x42F then c + 0x20
  else if 0x400 ≤ c ∧ c ≤ 0x40F then c + 0x50
  else c

/-- Lower-casing on Basic Latin and U+0400 to U+042F, the identity elsewhere.  It instantiates
`toLowerCase` in the concrete examples. -/
def lowerCase (s : JSString) : JSString := s.map simpleFold

/-! ## The regular expression of the bulk pass

`new RegExp("(^|[\\s.,!?;:\\n()\\[\\]{}<>])(" + escapedAbbr + ")(?=$|[\\s.,!?;:\\n()\\[\\]{}<>])", "giu")`.
`escapedAbbr` puts a backslash before each of the fourteen syntax characters, so the second
group matches the code points of `rule.abbr` literally, each compared after `canon`. -/

/-- The literal group `(escapedAbbr)`: returns the rest of the input after the match. -/
def matchLiteral (canon : Nat → Nat) : List Nat → List CodePointAt → Option (List CodePointAt)
  | [], s => some s
  | _ :: _, [] => none
  | p :: ps, c :: s => if canon p = canon c.codePoint then matchLiteral canon ps s else none

/-- The zero-width assertion `(?=$|[…])` at the position in front of `s`. -/
def lookaheadOk (canon : Nat → Nat) : List CodePointAt → Bool
  | [] => true
  | c :: _ => isBoundary canon c.codePoint

/-- The literal group followed by the lookahead. -/
def matchTail (canon : Nat → Nat) (pat : List Nat) (s : List CodePointAt) :
    Option (List CodePointAt) :=
  match matchLiteral canon pat s with
  | some rest => if lookaheadOk canon rest then some rest else none
  | none => none

/-- One attempt of the whole pattern at one position.  `atStart` says that the position is
index 0, where the alternative `^` is tried first; the second alternative consumes one class
character.  The result is the text of group 1 and the input after the match. -/
def matchHere (canon : Nat → Nat) (pat : List Nat) (atStart : Bool) (s : List CodePointAt) :
    Option (List CodePointAt × List CodePointAt) :=
  match (if atStart then matchTail canon pat s else none) with
  | some rest => some ([], rest)
  | none =>
    match s with
    | [] => none
    | c :: s' =>
      if isBoundary canon c.codePoint then
        match matchTail canon pat s' with
        | some rest => some ([c], rest)
        | none => none
      else none

/-- The call `line.replace(regex, (match, lead) => { replacedCount++; return lead + expanded })`
for a global regular expression: scan from the left, replace every match found, copy
the text between matches, resume after each match (one character further after an empty
match).  `skip` counts the characters of the current match that are still to be passed over.
The result is the new string and the number of callback invocations. -/
def replaceLoop (canon : Nat → Nat) (pat : List Nat) (expanded : JSString) :
    Bool → Nat → List CodePointAt → JSString × Nat
  | _, _ + 1, [] => ([], 0)
  | _, skip + 1, _ :: s => replaceLoop canon pat expanded false skip s
  | atStart, 0, [] =>
    match matchHere canon pat atStart [] with
    | some _ => (expanded, 1)
    | none => ([], 0)
  | atStart, 0, c :: s =>
    match matchHere canon pat atStart (c :: s) with
    | some (lead, _) =>
      match lead.length + pat.length with
      | 0 =>
        let r := replaceLoop canon pat expanded false 0 s
        (expanded ++ c.units ++ r.1, r.2 + 1)
      | len + 1 =>
        let r := replaceLoop canon pat expanded false len s
        (unitsOf lead ++ expanded ++ r.1, r.2 + 1)
    | none =>
      let r := replaceLoop canon pat expanded false 0 s
      (c.units ++ r.1, r.2)

/-- The code points of the literal group built from `rule.abbr`. -/
def abbrPattern (abbr : JSString) : List Nat :=
  (stringToCodePoints abbr).map CodePointAt.codePoint

/-- One rule applied to one line: the body of the inner `for (const rule of applicableRules)`
loop.  Returns the new line and the number of occurrences replaced. -/
def replaceRule (canon : Nat → Nat) (rule : Rule) (line : JSString) : JSString × Nat :=
  replaceLoop canon (abbrPattern rule.abbr) rule.expanded true 0 (stringToCodePoints line)

/-- The inner loop over `applicableRules`, each rule working on the output of the one before.
Returns the final line and the total number of occurrences replaced. -/
def applyRules (canon : Nat → Nat) (rules : List Rule) (line : JSString) : JSString × Nat :=
  rules.foldl (fun acc rule =>
    let r := replaceRule canon rule acc.1
    (r.1, acc.2 + r.2)) (line, 0)

/-! ## The editor -/

/-- An editor position `{ line, ch }`. -/
structure Pos where
  /-- Field `line`. -/
  line : Nat
  /-- Field `ch`. -/
  ch : Nat
deriving DecidableEq, Repr

/-- The host editor: the lines of the document and the caret.  The host's own remapping of
the caret through a change is not modelled; the bulk pass overrides it with `setCursor`. -/
structure Editor where
  /-- The document, line by line. -/
  lines : List JSString
  /-- The caret, `getCursor()`. -/
  cursor : Pos
deriving DecidableEq, Repr

/-- The call `editor.getLine(i)`. -/
def Editor.getLine (ed : Editor) (i : Nat) : JSString := ed.lines.getD i []

/-- The call `editor.lineCount()`. -/
def Editor.lineCount (ed : Editor) : Nat := ed.lines.length

/-- The call `editor.setCursor(pos)`. -/
def Editor.setCursor (ed : Editor) (pos : Pos) : Editor := { ed with cursor := pos }

/-- Lines of an inserted text: the host splits it at `\r\n`, `\r` and `\n`. -/
def splitLines : JSString → List JSString
  | [] => [[]]
  | [u] => if u = 0x0A ∨ u = 0x0D then [[], []] else [[u]]
  | u :: v :: rest =>
    if u = 0x0D ∧ v = 0x0A then [] :: splitLines rest
    else if u = 0x0A ∨ u = 0x0D then [] :: splitLines (v :: rest)
    else
      match splitLines (v :: rest) with
      | [] => [[u]]
      | l :: ls => (u :: l) :: ls

/-- The call `editor.replaceRange(text, a, b)`: the text between the positions `a` and `b`
is replaced with `text`. -/
def Editor.replaceRange (ed : Editor) (text : JSString) (a b : Pos) : Editor :=
  { ed with
    lines := ed.lines.take a.line
      ++ splitLines ((ed.getLine a.line).take a.ch ++ text ++ (ed.getLine b.line).drop b.ch)
      ++ ed.lines.drop (b.line + 1) }

/-! ## `handleReplacement` and the `editor-change` handler -/

/-- The arguments of one `editor.replaceRange` call. -/
structure ReplaceCall where
  /-- The inserted text. -/
  text : JSString
  /-- The start of the replaced range. -/
  start : Pos
  /-- The end of the replaced range. -/
  stop : Pos
deriving DecidableEq, Repr

/-- The call `textBeforeTrigger.match(/(\S+)$/)`: the longest run of non-whitespace code
units that ends the text, `none` when that run is empty. -/
def lastWordOf (textBeforeTrigger : JSString) : Option JSString :=
  let w := (textBeforeTrigger.reverse.takeWhile fun u => !isWhiteSpace u).reverse
  if w = [] then none else some w

/-- The just-completed word that `handleReplacement` extracts, `none` on each early return. -/
def completedWord (editor : Editor) : Option JSString :=
  let cursor := editor.cursor
  let line := editor.getLine cursor.line
  if cursor.ch = 0 then none
  else
    match line.get? (cursor.ch - 1) with
    | none => none
    | some lastChar =>
      if !isTriggerChar lastChar then none
      else lastWordOf (sliceTo line (cursor.ch - 1))

/-- The expression `file ? file.path : ""`. -/
def activePath (file : Option TFile) : JSString :=
  match file with
  | some f => f.path
  | none => []

/-- The `replaceRange` call that `handleReplacement(editor, file)` issues, if any. -/
def handleReplacementCall (toLowerCase : JSString → JSString) (settings : Settings)
    (editor : Editor) (file : Option TFile) : Option ReplaceCall :=
  match completedWord editor with
  | none => none
  | some lastWord =>
    let cursor := editor.cursor
    let filePath := activePath file
    match getBestRule toLowerCase settings.replacements lastWord filePath true with
    | none => none
    | some rule =>
      if lastWord ≠ rule.expanded then
        some { text := rule.expanded,
               start := { line := cursor.line, ch := cursor.ch - 1 - lastWord.length },
               stop := { line := cursor.line, ch := cursor.ch - 1 } }
      else none

/-- The method `handleReplacement(editor, file)`: the editor afterwards. -/
def handleReplacement (toLowerCase : JSString → JSString) (settings : Settings)
    (editor : Editor) (file : Option TFile) : Editor :=
  match handleReplacementCall toLowerCase settings editor file with
  | none => editor
  | some call => editor.replaceRange call.text call.start call.stop

/-- The `editor-change` handler registered in `onload`; `file` is `getActiveFile()`. -/
def onEditorChange (toLowerCase : JSString → JSString) (settings : Settings)
    (editor : Editor) (file : Option TFile) : Editor :=
  if !settings.autoReplace then editor
  else handleReplacement toLowerCase settings editor file

/-! ## `replaceManualInCurrentNote` -/

/-- The notices shown by the bulk pass. -/
inductive Notice where
  /-- Нет ручных сокращений для применения. -/
  | noManualRules
  /-- Заменено ручных сокращений: n. -/
  | replaced (n : Nat)
  /-- Ручные сокращения в этой заметке не найдены. -/
  | noneFound
deriving DecidableEq, Repr

/-- The filter callback that selects `applicableRules`. -/
def isApplicable (file : TFile) (rule : Rule) : Bool :=
  if !rule.manualOnly then false
  else if rule.folder ≠ [] ∧ ¬ startsWith file.path rule.folder then false
  else true

/-- The call `applicableRules.sort((a, b) => b.abbr.length - a.abbr.length)`: a stable sort
by descending length of the abbreviation. -/
def sortRules (rules : List Rule) : List Rule :=
  rules.insertionSort fun a b => a.abbr.length ≥ b.abbr.length

/-- State carried through the loop over the lines: the editor and `replacedCount`. -/
structure BulkState where
  /-- The editor. -/
  editor : Editor
  /-- Variable `replacedCount`. -/
  replacedCount : Nat
deriving DecidableEq, Repr

/-- The body of `for (let i = 0; i < lineCount; i++)`; `cursor` is the caret read before the
loop. -/
def bulkLineStep (canon : Nat → Nat) (applicableRules : List Rule) (cursor : Pos)
    (st : BulkState) (i : Nat) : BulkState :=
  let originalLine := st.editor.getLine i
  let r := applyRules canon applicableRules originalLine
  let newLine := r.1
  let replacedCount := st.replacedCount + r.2
  if newLine ≠ originalLine then
    let editor := st.editor.replaceRange newLine
      { line := i, ch := 0 } { line := i, ch := originalLine.length }
    if i = cursor.line then
      let textBeforeCursor := sliceTo originalLine cursor.ch
      let newTextBeforeCursor := (applyRules canon applicableRules textBeforeCursor).1
      let offset : Int := (newTextBeforeCursor.length : Int) - (textBeforeCursor.length : Int)
      { editor := editor.setCursor { line := cursor.line, ch := ((cursor.ch : Int) + offset).toNat },
        replacedCount := replacedCount }
    else { editor := editor, replacedCount := replacedCount }
  else { editor := st.editor, replacedCount := replacedCount }

/-- What `replaceManualInCurrentNote` leaves behind. -/
structure BulkResult where
  /-- The editor afterwards. -/
  editor : Editor
  /-- The final value of `replacedCount` (0 when the loop is not reached). -/
  replacedCount : Nat
  /-- The notice shown, if any. -/
  notice : Option Notice
deriving DecidableEq, Repr

/-- The method `replaceManualInCurrentNote(editor, file)`. -/
def replaceManualInCurrentNote (canon : Nat → Nat) (settings : Settings) (editor : Editor)
    (file : Option TFile) : BulkResult :=
  match file with
  | none => { editor := editor, replacedCount := 0, notice := none }
  | some f =>
    let applicableRules := settings.replacements.filter (isApplicable f)
    if applicableRules.length = 0 then
      { editor := editor, replacedCount := 0, notice := some Notice.noManualRules }
    else
      let sorted := sortRules applicableRules
      let cursor := editor.cursor
      let lineCount := editor.lineCount
      let st := (List.range lineCount).foldl (bulkLineStep canon sorted cursor)
        { editor := editor, replacedCount := 0 }
      { editor := st.editor, replacedCount := st.replacedCount,
        notice := some (if st.replacedCount > 0 then Notice.replaced st.replacedCount
                        else Notice.noneFound) }

/-! ## `loadSettings` -/

/-- The stored `replacements` value: the current array of rules, or the legacy object
that maps abbreviation text to expansion text (its entries in `Object.entries` order). -/
inductive StoredReplacements where
  /-- An array of rules. -/
  | array (rules : List Rule)
  /-- A legacy flat object. -/
  | mapping (entries : List (JSString × JSString))
deriving DecidableEq, Repr

/-- The object returned by `loadData()`; a field that is absent is `none`. -/
structure StoredData where
  /-- Field `autoReplace`. -/
  autoReplace : Option Bool
  /-- Field `replacements`. -/
  replacements : Option StoredReplacements
deriving DecidableEq, Repr

/-- What `loadSettings` leaves behind: `this.settings` and the `saveData` calls it made. -/
structure LoadResult where
  /-- The value of `this.settings`. -/
  settings : Settings
  /-- The arguments of the `saveData` calls, in order. -/
  saved : List Settings
deriving DecidableEq, Repr

/-- The rule pushed for one entry of the legacy object. -/
def migrateEntry (entry : JSString × JSString) : Rule :=
  { abbr := entry.1, expanded := entry.2, folder := [], manualOnly := false }

/-- The method `loadSettings()`.  `loaded` is the outcome of `loadData()`: `none` when it
throws, `some none` when it yields `null`, else the stored object.  `saveSucceeds` tells
whether the `saveData` promise resolves; when it rejects, the `catch` block runs. -/
def loadSettings (loaded : Option (Option StoredData)) (saveSucceeds : Bool) : LoadResult :=
  match loaded with
  | none => { settings := DEFAULT_SETTINGS, saved := [] }
  | some data =>
    let autoReplace := (data.bind StoredData.autoReplace).getD DEFAULT_SETTINGS.autoReplace
    match data.bind StoredData.replacements with
    | none =>
      { settings := { autoReplace := autoReplace, replacements := DEFAULT_SETTINGS.replacements },
        saved := [] }
    | some (StoredReplacements.array rules) =>
      { settings := { autoReplace := autoReplace, replacements := rules }, saved := [] }
    | some (StoredReplacements.mapping entries) =>
      let migrated : Settings :=
        { autoReplace := autoReplace, replacements := entries.map migrateEntry }
      if saveSucceeds then { settings := migrated, saved := [migrated] }
      else { settings := DEFAULT_SETTINGS, saved := [migrated] }

/-! ## Specification predicates -/

/-- A rule is a candidate for a word in a mode: its abbreviation equals the word after
lower-casing and, in auto mode, it is not manual-only. -/
def IsCandidate (toLowerCase : JSString → JSString) (word : JSString) (isAutoMode : Bool)
    (rule : Rule) : Prop :=
  toLowerCase rule.abbr = toLowerCase word ∧ (isAutoMode = true → rule.manualOnly = false)

/-- Loop invariant of `getBestRule` after the rules `seen`. -/
def BestInv (toLowerCase : JSString → JSString) (word filePath : JSString) (isAutoMode : Bool)
    (seen : List Rule) (st : BestState) : Prop :=
  (-1 ≤ st.maxFolderMatch) ∧
  (∀ r, st.bestRule = some r →
    r ∈ seen ∧ IsCandidate toLowerCase word isAutoMode r ∧
    ((r.folder = [] ∧ st.maxFolderMatch = -1) ∨
     (r.folder ≠ [] ∧ startsWith filePath r.folder = true ∧
      st.maxFolderMatch = (r.folder.length : Int)))) ∧
  (∀ c ∈ seen, IsCandidate toLowerCase word isAutoMode c → c.folder ≠ [] →
    startsWith filePath c.folder = true → (c.folder.length : Int) ≤ st.maxFolderMatch) ∧
  (∀ c ∈ seen, IsCandidate toLowerCase word isAutoMode c → c.folder = [] →
    st.bestRule ≠ none) ∧
  (st.bestRule = none → st.maxFolderMatch = -1)


/-- The state of the bulk pass when iteration `i` of the loop over the lines begins: the
iterations `0 … i - 1` have run. -/
def bulkStateBefore (canon : Nat → Nat) (rules : List Rule) (cursor : Pos) (editor : Editor)
    (i : Nat) : BulkState :=
  (List.range i).foldl (bulkLineStep canon rules cursor) { editor := editor, replacedCount := 0 }

/-- The rule АГ → Артериальная гипертензия of the examples, manual-only, without folder. -/
def ruleAG : Rule :=
  { abbr := utf16 "АГ", expanded := utf16 "Артериальная гипертензия", folder := [],
    manualOnly := true }

/-- The rule АГС → Синдром АГ of the examples, manual-only, without folder. -/
def ruleAGS : Rule :=
  { abbr := utf16 "АГС", expanded := utf16 "Синдром АГ", folder := [], manualOnly := true }

/-! ## Tokens -/

/-- Put a code unit in front of the first piece. -/
def prependUnit (u : Nat) : List JSString → List JSString
  | [] => [[u]]
  | t :: ts => (u :: t) :: ts

/-- Tokens of a string: the maximal runs of code units between boundary characters. -/
def tokens : JSString → List JSString
  | [] => [[]]
  | u :: s => if u ∈ boundaryChars then [] :: tokens s else prependUnit u (tokens s)

/-- A string without boundary characters. -/
@[reducible]
def BoundaryFree (s : JSString) : Prop := ∀ u ∈ s, u ∉ boundaryChars

/-- The literal group of the rule for `abbr` matches the whole of `t`. -/
def tokenMatches (canon : Nat → Nat) (abbr t : JSString) : Bool :=
  matchLiteral canon (abbrPattern abbr) (stringToCodePoints t) == some []

/-- The text made of boundary characters each followed by a piece. -/
def render : List (Nat × JSString) → JSString
  | [] => []
  | (b, t) :: segs => b :: (t ++ render segs)

/-- What the rule makes of one token: its expansion when the token matches, else the token. -/
def substToken (canon : Nat → Nat) (rule : Rule) (t : JSString) : JSString :=
  if tokenMatches canon rule.abbr t then rule.expanded else t

/-- Boundary characters each followed by a piece free of boundary characters. -/
def WellFormedSegs (segs : List (Nat × JSString)) : Prop :=
  ∀ p ∈ segs, p.1 ∈ boundaryChars ∧ BoundaryFree p.2

/-- A string without line break characters. -/
@[reducible]
def NoLineBreak (s : JSString) : Prop := ∀ u ∈ s, u ≠ 0x0A ∧ u ≠ 0x0D

/-- The line that the rule pipeline makes of a line. -/
def rewriteLine (canon : Nat → Nat) (rules : List Rule) (line : JSString) : JSString :=
  (applyRules canon rules line).1

/-- The case folding identifies no other character with a boundary character. -/
def FoldKeepsBoundaries (canon : Nat → Nat) : Prop :=
  ∀ c, isBoundary canon c = true → c ∈ boundaryChars

/-! # Theorems -/

/-! ## Resolver -/

theorem bestInv_step (toLowerCase : JSString → JSString) (word filePath : JSString)
    (isAutoMode : Bool) (seen : List Rule) (st : BestState) (rule : Rule)
    (h : BestInv toLowerCase word filePath isAutoMode seen st) :
    BestInv toLowerCase word filePath isAutoMode (seen ++ [rule])
      (getBestRuleStep toLowerCase word filePath isAutoMode st rule) := by
  obtain ⟨h0, h1, h2, h3, h4⟩ := h
  have hlen : (0 : Int) ≤ (rule.folder.length : Int) := Int.ofNat_nonneg _
  unfold getBestRuleStep
  by_cases hab : toLowerCase rule.abbr = toLowerCase word
  · by_cases hm : (isAutoMode && rule.manualOnly) = true
    · -- skipped by the mode filter
      have hnc : ¬ IsCandidate toLowerCase word isAutoMode rule := by
        intro hc
        simp only [Bool.and_eq_true] at hm
        have := hc.2 hm.1
        rw [this] at hm
        exact absurd hm.2 (by simp)
      simp only [hab, ne_eq, not_true_eq_false, if_false, hm, if_true]
      refine ⟨h0, ?_, ?_, ?_, h4⟩
      · intro r hr
        obtain ⟨a, b, c⟩ := h1 r hr
        exact ⟨List.mem_append_left _ a, b, c⟩
      · intro c hc hcand
        rcases List.mem_append.1 hc with hc | hc
        · exact h2 c hc hcand
        · simp only [List.mem_singleton] at hc
          subst hc
          exact absurd hcand hnc
      · intro c hc hcand
        rcases List.mem_append.1 hc with hc | hc
        · exact h3 c hc hcand
        · simp only [List.mem_singleton] at hc
          subst hc
          exact absurd hcand hnc
    · have hcand : IsCandidate toLowerCase word isAutoMode rule := by
        refine ⟨hab, fun ha => ?_⟩
        cases hmo : rule.manualOnly
        · rfl
        · exact absurd (by simp [ha, hmo]) hm
      simp only [hab, ne_eq, not_true_eq_false, if_false, hm, Bool.false_eq_true]
      by_cases hf : rule.folder = []
      · simp only [hf, not_true_eq_false, if_false]
        by_cases hmax : st.maxFolderMatch = -1
        · simp only [hmax, if_true]
          refine ⟨by simp, ?_, ?_, ?_, ?_⟩
          · intro r hr
            simp only [Option.some.injEq] at hr
            subst hr
            exact ⟨by simp, hcand, Or.inl ⟨hf, rfl⟩⟩
          · intro c hc hcc hcf hcs
            rcases List.mem_append.1 hc with hc | hc
            · have := h2 c hc hcc hcf hcs
              rw [hmax] at this
              exact this
            · simp only [List.mem_singleton] at hc
              subst hc
              exact absurd hf hcf
          · intro c _ _ _
            simp
          · intro hnone
            simp at hnone
        · simp only [hmax, if_false]
          refine ⟨h0, ?_, ?_, ?_, h4⟩
          · intro r hr
            obtain ⟨a, b, c⟩ := h1 r hr
            exact ⟨List.mem_append_left _ a, b, c⟩
          · intro c hc hcc hcf hcs
            rcases List.mem_append.1 hc with hc | hc
            · exact h2 c hc hcc hcf hcs
            · simp only [List.mem_singleton] at hc
              subst hc
              exact absurd hf hcf
          · intro c _ _ _ hnone
            exact hmax (h4 hnone)
      · simp only [hf, not_false_eq_true, if_true]
        by_cases hs : startsWith filePath rule.folder = true
        · by_cases hgt : (rule.folder.length : Int) > st.maxFolderMatch
          · simp only [hs, hgt, decide_True, Bool.and_self, if_true]
            refine ⟨by show (-1 : Int) ≤ (rule.folder.length : Int); omega, ?_, ?_, ?_, ?_⟩
            · intro r hr
              simp only [Option.some.injEq] at hr
              subst hr
              exact ⟨by simp, hcand, Or.inr ⟨hf, hs, rfl⟩⟩
            · intro c hc hcc hcf hcs
              rcases List.mem_append.1 hc with hc | hc
              · have := h2 c hc hcc hcf hcs
                show (c.folder.length : Int) ≤ (rule.folder.length : Int)
                omega
              · simp only [List.mem_singleton] at hc
                subst hc
                exact le_refl _
            · intro c _ _ _
              simp
            · intro hnone
              simp at hnone
          · simp only [hs, hgt, decide_False, Bool.and_false, Bool.false_eq_true, if_false]
            refine ⟨h0, ?_, ?_, ?_, h4⟩
            · intro r hr
              obtain ⟨a, b, c⟩ := h1 r hr
              exact ⟨List.mem_append_left _ a, b, c⟩
            · intro c hc hcc hcf hcs
              rcases List.mem_append.1 hc with hc | hc
              · exact h2 c hc hcc hcf hcs
              · simp only [List.mem_singleton] at hc
                subst hc
                omega
            · intro c hc hcc hcf
              rcases List.mem_append.1 hc with hc | hc
              · exact h3 c hc hcc hcf
              · simp only [List.mem_singleton] at hc
                subst hc
                exact absurd hcf hf
        · simp only [hs, Bool.false_and, Bool.false_eq_true, if_false]
          refine ⟨h0, ?_, ?_, ?_, h4⟩
          · intro r hr
            obtain ⟨a, b, c⟩ := h1 r hr
            exact ⟨List.mem_append_left _ a, b, c⟩
          · intro c hc hcc hcf hcs
            rcases List.mem_append.1 hc with hc | hc
            · exact h2 c hc hcc hcf hcs
            · simp only [List.mem_singleton] at hc
              subst hc
              exact absurd hcs hs
          · intro c hc hcc hcf
            rcases List.mem_append.1 hc with hc | hc
            · exact h3 c hc hcc hcf
            · simp only [List.mem_singleton] at hc
              subst hc
              exact absurd hcf hf
  · have hnc : ¬ IsCandidate toLowerCase word isAutoMode rule := fun hc => hab hc.1
    simp only [hab, ne_eq, not_false_eq_true, if_true]
    refine ⟨h0, ?_, ?_, ?_, h4⟩
    · intro r hr
      obtain ⟨a, b, c⟩ := h1 r hr
      exact ⟨List.mem_append_left _ a, b, c⟩
    · intro c hc hcand
      rcases List.mem_append.1 hc with hc | hc
      · exact h2 c hc hcand
      · simp only [List.mem_singleton] at hc
        subst hc
        exact absurd hcand hnc
    · intro c hc hcand
      rcases List.mem_append.1 hc with hc | hc
      · exact h3 c hc hcand
      · simp only [List.mem_singleton] at hc
        subst hc
        exact absurd hcand hnc

theorem bestInv_foldl (toLowerCase : JSString → JSString) (word filePath : JSString)
    (isAutoMode : Bool) (rules : List Rule) :
    BestInv toLowerCase word filePath isAutoMode rules
      (rules.foldl (getBestRuleStep toLowerCase word filePath isAutoMode)
        { bestRule := none, maxFolderMatch := -1 }) := by
  induction rules using List.reverseRecOn with
  | nil =>
    refine ⟨le_refl _, ?_, ?_, ?_, fun _ => rfl⟩
    · intro r hr
      simp at hr
    · intro c hc
      simp at hc
    · intro c hc
      simp at hc
  | append_singleton l a ih =>
    rw [List.foldl_append]
    exact bestInv_step toLowerCase word filePath isAutoMode l _ a ih

theorem getBestRule_sound (toLowerCase : JSString → JSString) (replacements : List Rule)
    (word filePath : JSString) (isAutoMode : Bool) (r : Rule)
    (h : getBestRule toLowerCase replacements word filePath isAutoMode = some r) :
    r ∈ replacements ∧ IsCandidate toLowerCase word isAutoMode r ∧
    (r.folder = [] ∨ startsWith filePath r.folder = true) ∧
    ∀ c ∈ replacements, IsCandidate toLowerCase word isAutoMode c → c.folder ≠ [] →
      startsWith filePath c.folder = true → c.folder.length ≤ r.folder.length := by
  obtain ⟨_, h1, h2, _, _⟩ := bestInv_foldl toLowerCase word filePath isAutoMode replacements
  obtain ⟨hmem, hcand, hcase⟩ := h1 r h
  refine ⟨hmem, hcand, ?_, ?_⟩
  · rcases hcase with ⟨hf, _⟩ | ⟨_, hs, _⟩
    · exact Or.inl hf
    · exact Or.inr hs
  · intro c hc hcc hcf hcs
    have hle := h2 c hc hcc hcf hcs
    rcases hcase with ⟨_, hmax⟩ | ⟨_, _, hmax⟩
    · rw [hmax] at hle
      have : (0 : Int) ≤ (c.folder.length : Int) := Int.ofNat_nonneg _
      omega
    · rw [hmax] at hle
      exact Int.ofNat_le.1 hle

theorem getBestRule_scoped_wins (toLowerCase : JSString → JSString) (replacements : List Rule)
    (word filePath : JSString) (isAutoMode : Bool) (c : Rule) (hc : c ∈ replacements)
    (hcand : IsCandidate toLowerCase word isAutoMode c) (hcf : c.folder ≠ [])
    (hcs : startsWith filePath c.folder = true) :
    ∃ r, getBestRule toLowerCase replacements word filePath isAutoMode = some r ∧
      r ∈ replacements ∧ IsCandidate toLowerCase word isAutoMode r ∧
      r.folder ≠ [] ∧ startsWith filePath r.folder = true := by
  obtain ⟨_, h1, h2, _, h4⟩ := bestInv_foldl toLowerCase word filePath isAutoMode replacements
  have hle := h2 c hc hcand hcf hcs
  have hpos : (0 : Int) ≤ (c.folder.length : Int) := Int.ofNat_nonneg _
  cases hb : getBestRule toLowerCase replacements word filePath isAutoMode with
  | none =>
    have := h4 hb
    omega
  | some r =>
    obtain ⟨hmem, hrc, hcase⟩ := h1 r hb
    rcases hcase with ⟨_, hmax⟩ | ⟨hf, hs, _⟩
    · omega
    · exact ⟨r, rfl, hmem, hrc, hf, hs⟩

/-- C1: whenever `getBestRule` returns a rule, it is a candidate whose folder is empty or a
prefix of the path, and no candidate with a non-empty folder that is a prefix of the path has
a longer folder; when a candidate scoped to a prefix of the path exists (next to a scope-less
one), a rule is returned and it is scoped, and for the two-rule lists the scoped rule itself
is returned in either order. -/
theorem getBestRule_most_specific (toLowerCase : JSString → JSString)
    (replacements : List Rule) (word filePath : JSString) (isAutoMode : Bool) :
    (∀ r, getBestRule toLowerCase replacements word filePath isAutoMode = some r →
      r ∈ replacements ∧ IsCandidate toLowerCase word isAutoMode r ∧
      (r.folder = [] ∨ startsWith filePath r.folder = true) ∧
      ∀ c ∈ replacements, IsCandidate toLowerCase word isAutoMode c → c.folder ≠ [] →
        startsWith filePath c.folder = true → c.folder.length ≤ r.folder.length) ∧
    (∀ s ∈ replacements, ∀ c ∈ replacements,
      IsCandidate toLowerCase word isAutoMode s → s.folder = [] →
      IsCandidate toLowerCase word isAutoMode c → c.folder ≠ [] →
      startsWith filePath c.folder = true →
      ∃ r, getBestRule toLowerCase replacements word filePath isAutoMode = some r ∧
        r ∈ replacements ∧ IsCandidate toLowerCase word isAutoMode r ∧
        r.folder ≠ [] ∧ startsWith filePath r.folder = true) ∧
    (∀ s c : Rule,
      IsCandidate toLowerCase word isAutoMode s → s.folder = [] →
      IsCandidate toLowerCase word isAutoMode c → c.folder ≠ [] →
      startsWith filePath c.folder = true →
      getBestRule toLowerCase [s, c] word filePath isAutoMode = some c ∧
      getBestRule toLowerCase [c, s] word filePath isAutoMode = some c) := by
  refine ⟨fun r h => getBestRule_sound toLowerCase replacements word filePath isAutoMode r h,
    fun s _ c hc _ _ hcand hcf hcs =>
      getBestRule_scoped_wins toLowerCase replacements word filePath isAutoMode c hc hcand hcf hcs,
    ?_⟩
  intro s c _ hsf hcand hcf hcs
  constructor
  · obtain ⟨r, hr, hmem, _, hf, _⟩ :=
      getBestRule_scoped_wins toLowerCase [s, c] word filePath isAutoMode c (by simp) hcand hcf hcs
    rw [hr]
    simp only [List.mem_cons, List.mem_singleton, List.not_mem_nil, or_false] at hmem
    rcases hmem with rfl | rfl
    · exact absurd hsf hf
    · rfl
  · obtain ⟨r, hr, hmem, _, hf, _⟩ :=
      getBestRule_scoped_wins toLowerCase [c, s] word filePath isAutoMode c (by simp) hcand hcf hcs
    rw [hr]
    simp only [List.mem_cons, List.mem_singleton, List.not_mem_nil, or_false] at hmem
    rcases hmem with rfl | rfl
    · rfl
    · exact absurd hsf hf

/-- Witness for C1: with the scope-less rule listed last, the rule scoped to the folder of
the document is returned. -/
theorem getBestRule_most_specific_witness :
    getBestRule lowerCase
      [{ abbr := utf16 "АГ", expanded := utf16 "Артериальная гипертензия",
         folder := utf16 "Терапия", manualOnly := false },
       { abbr := utf16 "аг", expanded := utf16 "Ангиография", folder := [], manualOnly := false }]
      (utf16 "Аг") (utf16 "Терапия/день.md") true
    = some { abbr := utf16 "АГ", expanded := utf16 "Артериальная гипертензия",
             folder := utf16 "Терапия", manualOnly := false } :=
  ((getBestRule_most_specific lowerCase [] (utf16 "Аг") (utf16 "Терапия/день.md") true).2.2
    { abbr := utf16 "аг", expanded := utf16 "Ангиография", folder := [], manualOnly := false }
    { abbr := utf16 "АГ", expanded := utf16 "Артериальная гипертензия",
      folder := utf16 "Терапия", manualOnly := false }
    ⟨by decide, by decide⟩ (by decide) ⟨by decide, by decide⟩ (by decide) (by decide)).2

/-- C2: in auto mode `getBestRule` never returns a rule whose `manualOnly` flag is set. -/
theorem getBestRule_auto_skips_manualOnly (toLowerCase : JSString → JSString)
    (replacements : List Rule) (word filePath : JSString) (r : Rule)
    (h : getBestRule toLowerCase replacements word filePath true = some r) :
    r.manualOnly = false :=
  (getBestRule_sound toLowerCase replacements word filePath true r h).2.1.2 rfl

/-- Witness for C2: a manual-only rule scoped to the folder of the document is passed over in
auto mode in favour of the scope-less automatic rule. -/
theorem getBestRule_auto_skips_manualOnly_witness :
    getBestRule lowerCase
        [{ abbr := utf16 "АД", expanded := utf16 "Артериальное давление",
           folder := utf16 "Терапия", manualOnly := true },
         { abbr := utf16 "АД", expanded := utf16 "адрес", folder := [], manualOnly := false }]
        (utf16 "ад") (utf16 "Терапия/день.md") true
      = some { abbr := utf16 "АД", expanded := utf16 "адрес", folder := [], manualOnly := false } ∧
    (Rule.mk (utf16 "АД") (utf16 "адрес") [] false).manualOnly = false :=
  ⟨by decide,
   getBestRule_auto_skips_manualOnly lowerCase
     [{ abbr := utf16 "АД", expanded := utf16 "Артериальное давление",
        folder := utf16 "Терапия", manualOnly := true },
      { abbr := utf16 "АД", expanded := utf16 "адрес", folder := [], manualOnly := false }]
     (utf16 "ад") (utf16 "Терапия/день.md") _ (by decide)⟩

/-! ## Auto-trigger detector -/

theorem getBestRule_scopeless (toLowerCase : JSString → JSString) (replacements : List Rule)
    (word : JSString) (isAutoMode : Bool) (c : Rule) (hc : c ∈ replacements)
    (hcand : IsCandidate toLowerCase word isAutoMode c) (hcf : c.folder = []) :
    ∃ r, getBestRule toLowerCase replacements word [] isAutoMode = some r ∧
      r ∈ replacements ∧ IsCandidate toLowerCase word isAutoMode r ∧ r.folder = [] := by
  obtain ⟨_, h1, _, h3, _⟩ := bestInv_foldl toLowerCase word [] isAutoMode replacements
  cases hb : getBestRule toLowerCase replacements word [] isAutoMode with
  | none => exact absurd hb (h3 c hc hcand hcf)
  | some r =>
    obtain ⟨hmem, hrc, hcase⟩ := h1 r hb
    rcases hcase with ⟨hf, _⟩ | ⟨hf, hs, _⟩
    · exact ⟨r, rfl, hmem, hrc, hf⟩
    · exfalso
      cases hrf : r.folder with
      | nil => exact hf hrf
      | cons a l =>
        rw [hrf] at hs
        simp [startsWith, List.isPrefixOf] at hs

theorem getBestRule_empty_path (toLowerCase : JSString → JSString) (replacements : List Rule)
    (word : JSString) (isAutoMode : Bool) (r : Rule)
    (h : getBestRule toLowerCase replacements word [] isAutoMode = some r) :
    r.folder = [] := by
  rcases (getBestRule_sound toLowerCase replacements word [] isAutoMode r h).2.2.1 with hf | hs
  · exact hf
  · cases hrf : r.folder with
    | nil => rfl
    | cons a l =>
      rw [hrf] at hs
      simp [startsWith, List.isPrefixOf] at hs

/-- C6, the claim refuted: with no active file and the rule АД → Артериальное давление, the
edit that completes the word АД is followed by a replacement. -/
theorem onEditorChange_without_file_replaces :
    (onEditorChange lowerCase
        { autoReplace := true,
          replacements := [{ abbr := utf16 "АД", expanded := utf16 "Артериальное давление",
                             folder := [], manualOnly := false }] }
        { lines := [utf16 "АД "], cursor := { line := 0, ch := 3 } } none).lines
      = [utf16 "Артериальное давление "] ∧
    handleReplacementCall lowerCase
        { autoReplace := true,
          replacements := [{ abbr := utf16 "АД", expanded := utf16 "Артериальное давление",
                             folder := [], manualOnly := false }] }
        { lines := [utf16 "АД "], cursor := { line := 0, ch := 3 } } none
      = some { text := utf16 "Артериальное давление", start := { line := 0, ch := 0 },
               stop := { line := 0, ch := 2 } } := by
  constructor <;> decide

/-- C6 as amended: with no active file the detector resolves the word against the empty
path.  It acts exactly as for a file whose path is empty; a replacement it makes comes from
a candidate rule with an empty folder and an expansion different from the word; and whenever
such a scope-less candidate exists, a scope-less rule is resolved and applied unless its
expansion equals the word. -/
theorem handleReplacement_without_file (toLowerCase : JSString → JSString)
    (settings : Settings) (editor : Editor) :
    handleReplacementCall toLowerCase settings editor none
      = handleReplacementCall toLowerCase settings editor (some { path := [] }) ∧
    (∀ call, handleReplacementCall toLowerCase settings editor none = some call →
      ∃ w r, completedWord editor = some w ∧ r ∈ settings.replacements ∧
        IsCandidate toLowerCase w true r ∧ r.folder = [] ∧ w ≠ r.expanded ∧
        call.text = r.expanded) ∧
    (∀ w c, completedWord editor = some w → c ∈ settings.replacements →
      IsCandidate toLowerCase w true c → c.folder = [] →
      ∃ r, getBestRule toLowerCase settings.replacements w [] true = some r ∧ r.folder = [] ∧
        (w ≠ r.expanded →
          handleReplacementCall toLowerCase settings editor none
            = some { text := r.expanded,
                     start := { line := editor.cursor.line,
                                ch := editor.cursor.ch - 1 - w.length },
                     stop := { line := editor.cursor.line, ch := editor.cursor.ch - 1 } })) := by
  refine ⟨rfl, ?_, ?_⟩
  · intro call hcall
    unfold handleReplacementCall at hcall
    cases hw : completedWord editor with
    | none => simp [hw] at hcall
    | some w =>
      simp only [hw, activePath] at hcall
      cases hb : getBestRule toLowerCase settings.replacements w [] true with
      | none => simp [hb] at hcall
      | some r =>
        simp only [hb] at hcall
        by_cases hne : w = r.expanded
        · simp [hne] at hcall
        · simp only [ne_eq, hne, not_false_eq_true, if_true, Option.some.injEq] at hcall
          obtain ⟨hmem, hcand, _, _⟩ :=
            getBestRule_sound toLowerCase settings.replacements w [] true r hb
          exact ⟨w, r, rfl, hmem, hcand,
            getBestRule_empty_path toLowerCase settings.replacements w true r hb, hne,
            by rw [← hcall]⟩
  · intro w c hw hc hcand hcf
    obtain ⟨r, hr, _, _, hrf⟩ :=
      getBestRule_scopeless toLowerCase settings.replacements w true c hc hcand hcf
    refine ⟨r, hr, hrf, fun hne => ?_⟩
    unfold handleReplacementCall
    simp only [hw, activePath, hr, ne_eq, hne, not_false_eq_true, if_true]

/-- Witness for C6 as amended: the scope-less rule АД is resolved without an active file. -/
theorem handleReplacement_without_file_witness :
    ∃ r, getBestRule lowerCase
        [{ abbr := utf16 "АД", expanded := utf16 "Артериальное давление",
           folder := [], manualOnly := false }] (utf16 "АД") [] true = some r ∧ r.folder = [] ∧
      (utf16 "АД" ≠ r.expanded →
        handleReplacementCall lowerCase
          { autoReplace := true,
            replacements := [{ abbr := utf16 "АД", expanded := utf16 "Артериальное давление",
                               folder := [], manualOnly := false }] }
          { lines := [utf16 "АД "], cursor := { line := 0, ch := 3 } } none
          = some { text := r.expanded, start := { line := 0, ch := 3 - 1 - (utf16 "АД").length },
                   stop := { line := 0, ch := 3 - 1 } }) :=
  (handleReplacement_without_file lowerCase
    { autoReplace := true,
      replacements := [{ abbr := utf16 "АД", expanded := utf16 "Артериальное давление",
                         folder := [], manualOnly := false }] }
    { lines := [utf16 "АД "], cursor := { line := 0, ch := 3 } }).2.2
    (utf16 "АД")
    { abbr := utf16 "АД", expanded := utf16 "Артериальное давление",
      folder := [], manualOnly := false }
    (by decide) (by decide) ⟨by decide, by decide⟩ (by decide)

/-- C8: when the rule resolved in auto mode for the just-completed word has an expansion equal
to that word, `handleReplacement` issues no `replaceRange` call and the editor is unchanged. -/
theorem handleReplacement_noop_on_equal (toLowerCase : JSString → JSString)
    (settings : Settings) (editor : Editor) (file : Option TFile) (w : JSString) (r : Rule)
    (hw : completedWord editor = some w)
    (hr : getBestRule toLowerCase settings.replacements w (activePath file) true = some r)
    (heq : r.expanded = w) :
    handleReplacementCall toLowerCase settings editor file = none ∧
    handleReplacement toLowerCase settings editor file = editor ∧
    onEditorChange toLowerCase settings editor file = editor := by
  have hcall : handleReplacementCall toLowerCase settings editor file = none := by
    unfold handleReplacementCall
    simp only [hw, hr, heq, ne_eq, not_true_eq_false, if_false]
  have hh : handleReplacement toLowerCase settings editor file = editor := by
    unfold handleReplacement
    rw [hcall]
  refine ⟨hcall, hh, ?_⟩
  unfold onEditorChange
  rw [hh]
  simp

/-- Witness for C8: the rule ад → АД resolves for the typed word АД, whose expansion is the
word itself; nothing is replaced. -/
theorem handleReplacement_noop_on_equal_witness :
    handleReplacementCall lowerCase
        { autoReplace := true,
          replacements := [{ abbr := utf16 "ад", expanded := utf16 "АД",
                             folder := [], manualOnly := false }] }
        { lines := [utf16 "АД."], cursor := { line := 0, ch := 3 } }
        (some { path := utf16 "день.md" }) = none ∧
    handleReplacement lowerCase
        { autoReplace := true,
          replacements := [{ abbr := utf16 "ад", expanded := utf16 "АД",
                             folder := [], manualOnly := false }] }
        { lines := [utf16 "АД."], cursor := { line := 0, ch := 3 } }
        (some { path := utf16 "день.md" })
      = { lines := [utf16 "АД."], cursor := { line := 0, ch := 3 } } ∧
    onEditorChange lowerCase
        { autoReplace := true,
          replacements := [{ abbr := utf16 "ад", expanded := utf16 "АД",
                             folder := [], manualOnly := false }] }
        { lines := [utf16 "АД."], cursor := { line := 0, ch := 3 } }
        (some { path := utf16 "день.md" })
      = { lines := [utf16 "АД."], cursor := { line := 0, ch := 3 } } :=
  handleReplacement_noop_on_equal lowerCase
    { autoReplace := true,
      replacements := [{ abbr := utf16 "ад", expanded := utf16 "АД",
                         folder := [], manualOnly := false }] }
    { lines := [utf16 "АД."], cursor := { line := 0, ch := 3 } }
    (some { path := utf16 "день.md" }) (utf16 "АД")
    { abbr := utf16 "ад", expanded := utf16 "АД", folder := [], manualOnly := false }
    (by decide) (by decide) (by decide)

/-! ## Legacy migration -/

/-- C9: when the stored `replacements` is a legacy flat object, `loadSettings` calls
`saveData` once, with settings that hold one rule per entry, in entry order, each with the
abbreviation and expansion of the entry, folder `""` and `manualOnly` false; when that save
resolves these are the settings in force.  For the object with the single entry
АД ↦ Артериальное давление the result is the single rule (АД, Артериальное давление, "", false). -/
theorem loadSettings_migrates_legacy (data : StoredData) (entries : List (JSString × JSString))
    (h : data.replacements = some (StoredReplacements.mapping entries)) :
    (∀ saveSucceeds, (loadSettings (some (some data)) saveSucceeds).saved
      = [{ autoReplace := data.autoReplace.getD true,
           replacements := entries.map fun e =>
             { abbr := e.1, expanded := e.2, folder := [], manualOnly := false } }]) ∧
    (loadSettings (some (some data)) true).settings
      = { autoReplace := data.autoReplace.getD true,
          replacements := entries.map fun e =>
            { abbr := e.1, expanded := e.2, folder := [], manualOnly := false } } ∧
    (loadSettings (some (some data)) true).settings.replacements.length = entries.length ∧
    loadSettings
        (some (some { autoReplace := none,
                      replacements := some (StoredReplacements.mapping
                        [(utf16 "АД", utf16 "Артериальное давление")]) })) true
      = { settings := { autoReplace := true,
                        replacements := [{ abbr := utf16 "АД",
                                           expanded := utf16 "Артериальное давление",
                                           folder := [], manualOnly := false }] },
          saved := [{ autoReplace := true,
                      replacements := [{ abbr := utf16 "АД",
                                         expanded := utf16 "Артериальное давление",
                                         folder := [], manualOnly := false }] }] } := by
  have hm : (fun e : JSString × JSString =>
      ({ abbr := e.1, expanded := e.2, folder := [], manualOnly := false } : Rule))
      = migrateEntry := rfl
  refine ⟨?_, ?_, ?_, by decide⟩
  · intro b
    cases b <;> simp [loadSettings, h, hm, DEFAULT_SETTINGS]
  · simp [loadSettings, h, hm, DEFAULT_SETTINGS]
  · simp [loadSettings, h, DEFAULT_SETTINGS]

/-- Witness for C9: a stored object with two legacy entries and the auto flag switched off. -/
theorem loadSettings_migrates_legacy_witness :
    (loadSettings
        (some (some { autoReplace := some false,
                      replacements := some (StoredReplacements.mapping
                        [(utf16 "АД", utf16 "Артериальное давление"),
                         (utf16 "АГ", utf16 "Артериальная гипертензия")]) })) true).settings
      = { autoReplace := (some false).getD true,
          replacements := [(utf16 "АД", utf16 "Артериальное давление"),
                           (utf16 "АГ", utf16 "Артериальная гипертензия")].map fun e =>
            { abbr := e.1, expanded := e.2, folder := [], manualOnly := false } } :=
  (loadSettings_migrates_legacy
    { autoReplace := some false,
      replacements := some (StoredReplacements.mapping
        [(utf16 "АД", utf16 "Артериальное давление"),
         (utf16 "АГ", utf16 "Артериальная гипертензия")]) }
    _ rfl).2.1

/-! ## Code points -/

theorem unitsOf_stringToCodePoints (s : JSString) : unitsOf (stringToCodePoints s) = s := by
  induction s using stringToCodePoints.induct with
  | case1 => rfl
  | case2 u => rfl
  | case3 hi lo rest h ih =>
    rw [stringToCodePoints, if_pos h, unitsOf, ih]
    rfl
  | case4 hi lo rest h ih =>
    rw [stringToCodePoints, if_neg h, unitsOf, ih]
    rfl

theorem unitsOf_append (x y : List CodePointAt) : unitsOf (x ++ y) = unitsOf x ++ unitsOf y := by
  induction x with
  | nil => rfl
  | cons c x ih => simp [unitsOf, ih]

theorem stringToCodePoints_cons_cons (hi lo : Nat) (rest : JSString) :
    stringToCodePoints (hi :: lo :: rest) =
      if isHighSurrogate hi && isLowSurrogate lo then
        ⟨0x10000 + (hi - 0xD800) * 0x400 + (lo - 0xDC00), [hi, lo]⟩ :: stringToCodePoints rest
      else ⟨hi, [hi]⟩ :: stringToCodePoints (lo :: rest) := by
  rw [stringToCodePoints]

theorem stringToCodePoints_cons (u : Nat) (s : JSString) (h : isHighSurrogate u = false) :
    stringToCodePoints (u :: s) = ⟨u, [u]⟩ :: stringToCodePoints s := by
  cases s with
  | nil => rfl
  | cons v r =>
    rw [stringToCodePoints, h, Bool.false_and]
    rfl

theorem stringToCodePoints_append (x : JSString) (b : Nat) (r : JSString)
    (hb : isLowSurrogate b = false) :
    stringToCodePoints (x ++ b :: r) = stringToCodePoints x ++ stringToCodePoints (b :: r) := by
  induction x using stringToCodePoints.induct with
  | case1 => rfl
  | case2 u =>
    show stringToCodePoints (u :: b :: r) = _
    rw [stringToCodePoints_cons_cons, hb, Bool.and_false]
    rfl
  | case3 hi lo rest h ih =>
    show stringToCodePoints (hi :: lo :: (rest ++ b :: r)) = _
    rw [stringToCodePoints_cons_cons, if_pos h, ih, stringToCodePoints_cons_cons hi lo rest,
      if_pos h]
    rfl
  | case4 hi lo rest h ih =>
    show stringToCodePoints (hi :: lo :: (rest ++ b :: r)) = _
    rw [stringToCodePoints_cons_cons, if_neg h, stringToCodePoints_cons_cons hi lo rest,
      if_neg h]
    have : lo :: (rest ++ b :: r) = (lo :: rest) ++ b :: r := rfl
    rw [this, ih]
    rfl

theorem stringToCodePoints_eq_nil (s : JSString) (h : stringToCodePoints s = []) : s = [] := by
  have := unitsOf_stringToCodePoints s
  rw [h] at this
  exact this.symm

theorem boundaryChars_not_surrogate (b : Nat) (hb : b ∈ boundaryChars) :
    isHighSurrogate b = false ∧ isLowSurrogate b = false := by
  simp only [boundaryChars, whiteSpaceChars, List.mem_append, List.mem_cons, List.mem_singleton,
    List.not_mem_nil, or_false] at hb
  rcases hb with (h | h)
  · rcases h with h|h|h|h|h|h|h|h|h|h|h|h|h|h|h|h|h|h|h|h|h|h|h|h|h <;> subst h <;> decide
  · rcases h with h|h|h|h|h|h|h|h|h|h|h|h|h|h|h <;> subst h <;> decide

theorem isBoundary_of_mem (canon : Nat → Nat) (b : Nat) (hb : b ∈ boundaryChars) :
    isBoundary canon b = true := by
  unfold isBoundary
  rw [List.any_eq_true]
  exact ⟨b, hb, by simp⟩

/-! ## Scanning -/

theorem matchLiteral_self (canon : Nat → Nat) (x rest : List CodePointAt) :
    matchLiteral canon (x.map CodePointAt.codePoint) (x ++ rest) = some rest := by
  induction x with
  | nil => rfl
  | cons c x ih =>
    simp only [List.map_cons, List.cons_append, matchLiteral, if_true]
    exact ih

theorem replaceLoop_skip (canon : Nat → Nat) (pat : List Nat) (e : JSString)
    (x rest : List CodePointAt) :
    replaceLoop canon pat e false x.length (x ++ rest) = replaceLoop canon pat e false 0 rest := by
  induction x with
  | nil => rfl
  | cons c x ih =>
    simp only [List.length_cons, List.cons_append, replaceLoop]
    exact ih

theorem replaceLoop_found (canon : Nat → Nat) (pat : List Nat) (e : JSString) (a : Bool)
    (c : CodePointAt) (s lead rest : List CodePointAt) (n : Nat)
    (h : matchHere canon pat a (c :: s) = some (lead, rest))
    (hn : lead.length + pat.length = n + 1) :
    replaceLoop canon pat e a 0 (c :: s)
      = (unitsOf lead ++ e ++ (replaceLoop canon pat e false n s).1,
         (replaceLoop canon pat e false n s).2 + 1) := by
  rw [replaceLoop, h]
  simp only [hn]

theorem replaceLoop_not_found (canon : Nat → Nat) (pat : List Nat) (e : JSString) (a : Bool)
    (c : CodePointAt) (s : List CodePointAt)
    (h : matchHere canon pat a (c :: s) = none) :
    replaceLoop canon pat e a 0 (c :: s)
      = (c.units ++ (replaceLoop canon pat e false 0 s).1,
         (replaceLoop canon pat e false 0 s).2) := by
  rw [replaceLoop, h]

theorem replaceLoop_nil (canon : Nat → Nat) (pat : List Nat) (e : JSString)
    (hp : pat ≠ []) (a : Bool) :
    replaceLoop canon pat e a 0 [] = ([], 0) := by
  cases pat with
  | nil => exact absurd rfl hp
  | cons p ps =>
    cases a <;> simp [replaceLoop, matchHere, matchTail, matchLiteral]

theorem abbrPattern_ne_nil (abbr : JSString) (h : abbr ≠ []) : abbrPattern abbr ≠ [] := by
  intro hp
  unfold abbrPattern at hp
  rw [List.map_eq_nil_iff] at hp
  exact h (stringToCodePoints_eq_nil abbr hp)

theorem matchTail_of_matchLiteral (canon : Nat → Nat) (pat : List Nat)
    (s rest : List CodePointAt) (h : matchLiteral canon pat s = some rest)
    (hl : lookaheadOk canon rest = true) : matchTail canon pat s = some rest := by
  unfold matchTail
  rw [h]
  simp only [hl, if_true]

theorem matchHere_at_start (canon : Nat → Nat) (pat : List Nat) (s rest : List CodePointAt)
    (h : matchTail canon pat s = some rest) :
    matchHere canon pat true s = some ([], rest) := by
  unfold matchHere
  simp only [if_true, h]

theorem matchHere_after_boundary (canon : Nat → Nat) (pat : List Nat) (c : CodePointAt)
    (s rest : List CodePointAt) (hc : isBoundary canon c.codePoint = true)
    (h : matchTail canon pat s = some rest) :
    matchHere canon pat false (c :: s) = some ([c], rest) := by
  unfold matchHere
  simp only [Bool.false_eq_true, if_false, hc, if_true, h]

theorem replaceRule_adjacent (canon : Nat → Nat) (rule : Rule) (b : Nat)
    (hw : rule.abbr ≠ []) (hb : b ∈ boundaryChars) :
    replaceRule canon rule (rule.abbr ++ b :: rule.abbr)
      = (rule.expanded ++ b :: rule.expanded, 2) := by
  obtain ⟨hbh, hbl⟩ := boundaryChars_not_surrogate b hb
  have hB := isBoundary_of_mem canon b hb
  have hpat := abbrPattern_ne_nil rule.abbr hw
  unfold replaceRule
  rw [stringToCodePoints_append _ _ _ hbl, stringToCodePoints_cons _ _ hbh]
  unfold abbrPattern at hpat ⊢
  generalize stringToCodePoints rule.abbr = X at hpat ⊢
  cases X with
  | nil => simp at hpat
  | cons c X' =>
    have h1 : matchHere canon ((c :: X').map CodePointAt.codePoint) true
        (c :: (X' ++ ⟨b, [b]⟩ :: (c :: X'))) = some ([], ⟨b, [b]⟩ :: (c :: X')) := by
      have := matchLiteral_self canon (c :: X') (⟨b, [b]⟩ :: (c :: X'))
      exact matchHere_at_start canon _ _ _ (matchTail_of_matchLiteral canon _ _ _ this hB)
    have h2 : matchHere canon ((c :: X').map CodePointAt.codePoint) false
        (⟨b, [b]⟩ :: (c :: X')) = some ([⟨b, [b]⟩], []) := by
      have := matchLiteral_self canon (c :: X') []
      rw [List.append_nil] at this
      exact matchHere_after_boundary canon _ _ _ _ hB
        (matchTail_of_matchLiteral canon _ _ _ this rfl)
    rw [List.cons_append, replaceLoop_found canon _ _ true c _ _ _ X'.length h1 (by simp),
      replaceLoop_skip,
      replaceLoop_found canon _ _ false _ _ _ _ (c :: X').length h2
        (by simp only [List.length_cons, List.length_map, List.length_nil]; omega)]
    have h3 := replaceLoop_skip canon ((c :: X').map CodePointAt.codePoint) rule.expanded
      (c :: X') []
    rw [List.append_nil] at h3
    rw [h3, replaceLoop_nil canon _ _ (by simp)]
    simp [unitsOf]

/-! ## Bulk pass -/

theorem splitLines_of_no_break (s : JSString) (h : ∀ u ∈ s, u ≠ 0x0A ∧ u ≠ 0x0D) :
    splitLines s = [s] := by
  induction s using splitLines.induct with
  | case1 => rfl
  | case2 u hu =>
    have := h u (by simp)
    exact absurd hu (by simp [this.1, this.2])
  | case3 u hu =>
    rw [splitLines, if_neg hu]
  | case4 u v rest hcr ih =>
    have := h u (by simp)
    exact absurd hcr.1 this.2
  | case5 u v rest hcr hu ih =>
    have := h u (by simp)
    exact absurd hu (by simp [this.1, this.2])
  | case6 u v rest hcr hu hnil ih =>
    have := ih (fun x hx => h x (List.mem_cons_of_mem _ hx))
    rw [hnil] at this
    simp at this
  | case7 u v rest hcr hu l ls hl ih =>
    have := ih (fun x hx => h x (List.mem_cons_of_mem _ hx))
    rw [hl] at this
    simp only [List.cons.injEq] at this
    rw [splitLines, if_neg hcr, if_neg hu, hl, this.1, this.2]

theorem applyRules_nil (canon : Nat → Nat) (line : JSString) :
    applyRules canon [] line = (line, 0) := rfl

theorem applyRules_singleton (canon : Nat → Nat) (rule : Rule) (line : JSString) :
    applyRules canon [rule] line
      = ((replaceRule canon rule line).1, (replaceRule canon rule line).2) := by
  simp [applyRules]

theorem bulk_single_line (canon : Nat → Nat) (settings : Settings) (file : TFile)
    (line : JSString) (cursor : Pos) (rule : Rule)
    (hflt : settings.replacements.filter (isApplicable file) = [rule]) :
    replaceManualInCurrentNote canon settings { lines := [line], cursor := cursor } (some file)
      = { editor := (bulkLineStep canon [rule] cursor
            { editor := { lines := [line], cursor := cursor }, replacedCount := 0 } 0).editor,
          replacedCount := (bulkLineStep canon [rule] cursor
            { editor := { lines := [line], cursor := cursor }, replacedCount := 0 } 0).replacedCount,
          notice := some (if (bulkLineStep canon [rule] cursor
              { editor := { lines := [line], cursor := cursor },
                replacedCount := 0 } 0).replacedCount > 0
            then Notice.replaced (bulkLineStep canon [rule] cursor
              { editor := { lines := [line], cursor := cursor },
                replacedCount := 0 } 0).replacedCount
            else Notice.noneFound) } := by
  unfold replaceManualInCurrentNote
  simp only [hflt, List.length_singleton, one_ne_zero, if_false, Editor.lineCount]
  rfl

theorem bulkLineStep_replacedCount (canon : Nat → Nat) (rules : List Rule) (cursor : Pos)
    (st : BulkState) (i : Nat) :
    (bulkLineStep canon rules cursor st i).replacedCount
      = st.replacedCount + (applyRules canon rules (st.editor.getLine i)).2 := by
  unfold bulkLineStep
  simp only
  split_ifs <;> rfl

theorem bulkLineStep_lines (canon : Nat → Nat) (rules : List Rule) (cursor : Pos)
    (st : BulkState) (i : Nat) :
    (bulkLineStep canon rules cursor st i).editor.lines
      = if (applyRules canon rules (st.editor.getLine i)).1 ≠ st.editor.getLine i then
          (st.editor.replaceRange (applyRules canon rules (st.editor.getLine i)).1
            { line := i, ch := 0 } { line := i, ch := (st.editor.getLine i).length }).lines
        else st.editor.lines := by
  unfold bulkLineStep
  simp only
  split_ifs <;> rfl

theorem bulkLineStep_cursor (canon : Nat → Nat) (rules : List Rule) (cursor : Pos)
    (st : BulkState) (i : Nat) :
    (bulkLineStep canon rules cursor st i).editor.cursor
      = if (applyRules canon rules (st.editor.getLine i)).1 ≠ st.editor.getLine i
            ∧ i = cursor.line then
          { line := cursor.line,
            ch := ((cursor.ch : Int)
              + (((applyRules canon rules
                    (sliceTo (st.editor.getLine i) cursor.ch)).1.length : Int)
                 - ((sliceTo (st.editor.getLine i) cursor.ch).length : Int))).toNat }
        else st.editor.cursor := by
  unfold bulkLineStep
  simp only
  split_ifs with h1 h2 h3 h3 <;> first | rfl | (exfalso; tauto)

theorem replaceRange_whole_line_single (line text : JSString) (cursor : Pos) :
    (Editor.replaceRange { lines := [line], cursor := cursor } text
      { line := 0, ch := 0 } { line := 0, ch := line.length }).lines = splitLines text := by
  simp [Editor.replaceRange, Editor.getLine]

/-- C7: for the only applicable manual rule, with non-empty abbreviation `w` and expansion
`e`, and every boundary character `b`, the bulk pass over the single line `w·b·w` replaces
both occurrences: the rule pipeline turns the line into `e·b·e` with count 2, the replaced
count of the pass is 2, and the editor receives `e·b·e` (one line when it has no line break). -/
theorem bulk_adjacent_occurrences (canon : Nat → Nat) (settings : Settings) (file : TFile)
    (cursor : Pos) (rule : Rule) (b : Nat)
    (hflt : settings.replacements.filter (isApplicable file) = [rule])
    (hw : rule.abbr ≠ []) (hb : b ∈ boundaryChars) :
    applyRules canon [rule] (rule.abbr ++ b :: rule.abbr)
      = (rule.expanded ++ b :: rule.expanded, 2) ∧
    (replaceManualInCurrentNote canon settings
      { lines := [rule.abbr ++ b :: rule.abbr], cursor := cursor } (some file)).replacedCount
      = 2 ∧
    (replaceManualInCurrentNote canon settings
      { lines := [rule.abbr ++ b :: rule.abbr], cursor := cursor } (some file)).notice
      = some (Notice.replaced 2) ∧
    (replaceManualInCurrentNote canon settings
      { lines := [rule.abbr ++ b :: rule.abbr], cursor := cursor } (some file)).editor.lines
      = (if rule.expanded ++ b :: rule.expanded = rule.abbr ++ b :: rule.abbr
          then [rule.abbr ++ b :: rule.abbr]
          else splitLines (rule.expanded ++ b :: rule.expanded)) ∧
    ((∀ u ∈ rule.expanded ++ b :: rule.expanded, u ≠ 0x0A ∧ u ≠ 0x0D) →
      (replaceManualInCurrentNote canon settings
        { lines := [rule.abbr ++ b :: rule.abbr], cursor := cursor } (some file)).editor.lines
        = [rule.expanded ++ b :: rule.expanded]) := by
  have happ : applyRules canon [rule] (rule.abbr ++ b :: rule.abbr)
      = (rule.expanded ++ b :: rule.expanded, 2) := by
    rw [applyRules_singleton, replaceRule_adjacent canon rule b hw hb]
  have hget : Editor.getLine { lines := [rule.abbr ++ b :: rule.abbr], cursor := cursor } 0
      = rule.abbr ++ b :: rule.abbr := rfl
  have hcount : (bulkLineStep canon [rule] cursor
      { editor := { lines := [rule.abbr ++ b :: rule.abbr], cursor := cursor },
        replacedCount := 0 } 0).replacedCount = 2 := by
    rw [bulkLineStep_replacedCount, hget, happ]
    rfl
  have hlines : (bulkLineStep canon [rule] cursor
      { editor := { lines := [rule.abbr ++ b :: rule.abbr], cursor := cursor },
        replacedCount := 0 } 0).editor.lines
      = (if rule.expanded ++ b :: rule.expanded = rule.abbr ++ b :: rule.abbr
          then [rule.abbr ++ b :: rule.abbr]
          else splitLines (rule.expanded ++ b :: rule.expanded)) := by
    rw [bulkLineStep_lines, hget, happ]
    simp only [ne_eq, ite_not]
    split_ifs
    · rfl
    · exact replaceRange_whole_line_single _ _ _
  rw [bulk_single_line canon settings file _ cursor rule hflt]
  simp only [hcount, hlines]
  refine ⟨happ, trivial, by simp, trivial, ?_⟩
  intro hnb
  split_ifs with heq
  · rw [heq]
  · exact splitLines_of_no_break _ hnb

/-- Witness for C7: the rule АГ → Артериальная гипертензия on the line `АГ,АГ`. -/
theorem bulk_adjacent_occurrences_witness :
    (replaceManualInCurrentNote simpleFold
      { autoReplace := true,
        replacements := [{ abbr := utf16 "АГ", expanded := utf16 "Артериальная гипертензия",
                           folder := utf16 "Терапия", manualOnly := true }] }
      { lines := [utf16 "АГ" ++ 0x2C :: utf16 "АГ"], cursor := { line := 0, ch := 0 } }
      (some { path := utf16 "Терапия/день.md" })).replacedCount = 2 :=
  (bulk_adjacent_occurrences simpleFold
    { autoReplace := true,
      replacements := [{ abbr := utf16 "АГ", expanded := utf16 "Артериальная гипертензия",
                         folder := utf16 "Терапия", manualOnly := true }] }
    { path := utf16 "Терапия/день.md" } { line := 0, ch := 0 }
    { abbr := utf16 "АГ", expanded := utf16 "Артериальная гипертензия",
      folder := utf16 "Терапия", manualOnly := true } 0x2C
    (by decide) (by decide) (by decide)).2.1

/-! ## Caret recomputation -/

theorem bulkStateBefore_succ (canon : Nat → Nat) (rules : List Rule) (cursor : Pos)
    (editor : Editor) (i : Nat) :
    bulkStateBefore canon rules cursor editor (i + 1)
      = bulkLineStep canon rules cursor (bulkStateBefore canon rules cursor editor i) i := by
  unfold bulkStateBefore
  rw [List.range_succ, List.foldl_append]
  rfl

theorem bulkLineStep_cursor_other (canon : Nat → Nat) (rules : List Rule) (cursor : Pos)
    (st : BulkState) (i : Nat) (h : i ≠ cursor.line) :
    (bulkLineStep canon rules cursor st i).editor.cursor = st.editor.cursor := by
  rw [bulkLineStep_cursor, if_neg]
  exact fun hc => h hc.2

theorem bulkStateBefore_cursor (canon : Nat → Nat) (rules : List Rule) (cursor : Pos)
    (editor : Editor) (n : Nat) (h : cursor.line < n) :
    (bulkStateBefore canon rules cursor editor n).editor.cursor
      = (bulkStateBefore canon rules cursor editor (cursor.line + 1)).editor.cursor := by
  induction n with
  | zero => omega
  | succ k ih =>
    by_cases hk : cursor.line = k
    · rw [hk]
    · rw [bulkStateBefore_succ, bulkLineStep_cursor_other canon rules cursor _ k (Ne.symm hk)]
      exact ih (by omega)

theorem replaceManualInCurrentNote_eq (canon : Nat → Nat) (settings : Settings)
    (editor : Editor) (f : TFile)
    (h : settings.replacements.filter (isApplicable f) ≠ []) :
    (replaceManualInCurrentNote canon settings editor (some f)).editor
      = (bulkStateBefore canon (sortRules (settings.replacements.filter (isApplicable f)))
          editor.cursor editor editor.lineCount).editor ∧
    (replaceManualInCurrentNote canon settings editor (some f)).replacedCount
      = (bulkStateBefore canon (sortRules (settings.replacements.filter (isApplicable f)))
          editor.cursor editor editor.lineCount).replacedCount := by
  unfold replaceManualInCurrentNote
  have hl : (settings.replacements.filter (isApplicable f)).length ≠ 0 := by
    rw [ne_eq, List.length_eq_zero]
    exact h
  simp only [hl, if_false]
  exact ⟨rfl, rfl⟩

/-- C5: when the bulk pass rewrites the caret line, the caret it sets stays on that line at
offset `originalOffset + (len(P') - len(P))`, where `P` is the line, as read when its
iteration begins, cut at the original offset and `P'` is the output of the same sorted rule
pipeline on `P`; for the line `пациент с АГ.` with the caret at offset 14 and the single rule
АГ → Артериальная гипертензия the caret is set to offset 36. -/
theorem bulk_caret_offset :
    (∀ (canon : Nat → Nat) (settings : Settings) (editor : Editor) (f : TFile),
      settings.replacements.filter (isApplicable f) ≠ [] →
      editor.cursor.line < editor.lineCount →
      (applyRules canon (sortRules (settings.replacements.filter (isApplicable f)))
          ((bulkStateBefore canon (sortRules (settings.replacements.filter (isApplicable f)))
            editor.cursor editor editor.cursor.line).editor.getLine editor.cursor.line)).1
        ≠ (bulkStateBefore canon (sortRules (settings.replacements.filter (isApplicable f)))
            editor.cursor editor editor.cursor.line).editor.getLine editor.cursor.line →
      (replaceManualInCurrentNote canon settings editor (some f)).editor.cursor.line
        = editor.cursor.line ∧
      (((replaceManualInCurrentNote canon settings editor (some f)).editor.cursor.ch : Nat) : Int)
        = (editor.cursor.ch : Int)
          + (((applyRules canon (sortRules (settings.replacements.filter (isApplicable f)))
                (sliceTo ((bulkStateBefore canon
                    (sortRules (settings.replacements.filter (isApplicable f)))
                    editor.cursor editor editor.cursor.line).editor.getLine editor.cursor.line)
                  editor.cursor.ch)).1.length : Int)
             - ((sliceTo ((bulkStateBefore canon
                    (sortRules (settings.replacements.filter (isApplicable f)))
                    editor.cursor editor editor.cursor.line).editor.getLine editor.cursor.line)
                  editor.cursor.ch).length : Int))) ∧
    (replaceManualInCurrentNote simpleFold { autoReplace := true, replacements := [ruleAG] }
        { lines := [utf16 "пациент с АГ."], cursor := { line := 0, ch := 14 } }
        (some { path := utf16 "день.md" })).editor
      = { lines := [utf16 "пациент с Артериальная гипертензия."],
          cursor := { line := 0, ch := 36 } } := by
  refine ⟨?_, by decide⟩
  intro canon settings editor f hne hlt hchg
  rw [(replaceManualInCurrentNote_eq canon settings editor f hne).1,
    bulkStateBefore_cursor canon _ editor.cursor editor _ hlt, bulkStateBefore_succ,
    bulkLineStep_cursor, if_pos ⟨hchg, rfl⟩]
  refine ⟨rfl, ?_⟩
  apply Int.toNat_of_nonneg
  have hlen : (sliceTo ((bulkStateBefore canon
      (sortRules (settings.replacements.filter (isApplicable f)))
      editor.cursor editor editor.cursor.line).editor.getLine editor.cursor.line)
      editor.cursor.ch).length ≤ editor.cursor.ch := by
    unfold sliceTo
    rw [List.length_take]
    exact Nat.min_le_left _ _
  omega

/-- Witness for C5: the pass over `АГ, АГ` with the caret at offset 3 sets the caret to
offset 25. -/
theorem bulk_caret_offset_witness :
    (replaceManualInCurrentNote simpleFold { autoReplace := true, replacements := [ruleAG] }
        { lines := [utf16 "АГ, АГ"], cursor := { line := 0, ch := 3 } }
        (some { path := utf16 "день.md" })).editor.cursor.line = 0 ∧
    (((replaceManualInCurrentNote simpleFold { autoReplace := true, replacements := [ruleAG] }
        { lines := [utf16 "АГ, АГ"], cursor := { line := 0, ch := 3 } }
        (some { path := utf16 "день.md" })).editor.cursor.ch : Nat) : Int)
      = (3 : Int)
        + (((applyRules simpleFold [ruleAG] (sliceTo (utf16 "АГ, АГ") 3)).1.length : Int)
           - ((sliceTo (utf16 "АГ, АГ") 3).length : Int)) :=
  bulk_caret_offset.1 simpleFold { autoReplace := true, replacements := [ruleAG] }
    { lines := [utf16 "АГ, АГ"], cursor := { line := 0, ch := 3 } }
    { path := utf16 "день.md" } (by decide) (by decide) (by decide)

/-- C10, the code evaluated at the failing input: on the line `АГС АГ` with the caret between
`АГ` and `С` the pass rewrites only the second word, yet it moves the caret from offset 2 to
offset 24; the text of the rewritten line before the new caret is not the pipeline output on
the first two characters of the original line. -/
theorem bulk_caret_not_anchored :
    (replaceManualInCurrentNote simpleFold { autoReplace := true, replacements := [ruleAG] }
        { lines := [utf16 "АГС АГ"], cursor := { line := 0, ch := 2 } }
        (some { path := utf16 "день.md" })).editor
      = { lines := [utf16 "АГС Артериальная гипертензия"], cursor := { line := 0, ch := 24 } } ∧
    (applyRules simpleFold [ruleAG] (sliceTo (utf16 "АГС АГ") 2)).1
      = utf16 "Артериальная гипертензия" ∧
    (utf16 "АГС Артериальная гипертензия").take 24 = utf16 "АГС Артериальная гиперте" ∧
    (utf16 "АГС Артериальная гипертензия").take 24
      ≠ (applyRules simpleFold [ruleAG] (sliceTo (utf16 "АГС АГ") 2)).1 := by
  decide

/-! ## Longest abbreviation first -/

/-- C3, the claim refuted: with the manual rules АГ and АГС the pass over `АГС нормальна`
reports two replacements, not one. -/
theorem bulk_longest_first_count :
    (replaceManualInCurrentNote simpleFold
        { autoReplace := true, replacements := [ruleAG, ruleAGS] }
        { lines := [utf16 "АГС нормальна"], cursor := { line := 0, ch := 0 } }
        (some { path := utf16 "день.md" })).replacedCount = 2 ∧
    (replaceManualInCurrentNote simpleFold
        { autoReplace := true, replacements := [ruleAG, ruleAGS] }
        { lines := [utf16 "АГС нормальна"], cursor := { line := 0, ch := 0 } }
        (some { path := utf16 "день.md" })).replacedCount ≠ 1 := by
  decide

/-- C3 as amended: the rules are applied longest abbreviation first; on `АГС нормальна` the
rule АГ on its own matches nothing, so АГС is never split into АГ and С, and the rule АГС
replaces exactly one occurrence, giving `Синдром АГ нормальна`; the rule АГ, applied next to
that output, matches the АГ of the inserted expansion, so the pass ends with the line
`Синдром Артериальная гипертензия нормальна` and a replaced count of 2, in either order of
the two rules in the settings. -/
theorem bulk_longest_first_no_fragment :
    sortRules [ruleAG, ruleAGS] = [ruleAGS, ruleAG] ∧
    sortRules [ruleAGS, ruleAG] = [ruleAGS, ruleAG] ∧
    replaceRule simpleFold ruleAG (utf16 "АГС нормальна") = (utf16 "АГС нормальна", 0) ∧
    replaceRule simpleFold ruleAGS (utf16 "АГС нормальна") = (utf16 "Синдром АГ нормальна", 1) ∧
    replaceRule simpleFold ruleAG (utf16 "Синдром АГ нормальна")
      = (utf16 "Синдром Артериальная гипертензия нормальна", 1) ∧
    replaceManualInCurrentNote simpleFold
        { autoReplace := true, replacements := [ruleAG, ruleAGS] }
        { lines := [utf16 "АГС нормальна"], cursor := { line := 0, ch := 0 } }
        (some { path := utf16 "день.md" })
      = { editor := { lines := [utf16 "Синдром Артериальная гипертензия нормальна"],
                      cursor := { line := 0, ch := 0 } },
          replacedCount := 2, notice := some (Notice.replaced 2) } ∧
    replaceManualInCurrentNote simpleFold
        { autoReplace := true, replacements := [ruleAGS, ruleAG] }
        { lines := [utf16 "АГС нормальна"], cursor := { line := 0, ch := 0 } }
        (some { path := utf16 "день.md" })
      = { editor := { lines := [utf16 "Синдром Артериальная гипертензия нормальна"],
                      cursor := { line := 0, ch := 0 } },
          replacedCount := 2, notice := some (Notice.replaced 2) } := by
  decide

theorem tokens_ne_nil (s : JSString) : tokens s ≠ [] := by
  cases s with
  | nil => simp [tokens]
  | cons u s =>
    unfold tokens
    split_ifs
    · simp
    · cases tokens s <;> simp [prependUnit]

theorem prependUnit_append (u : Nat) (l m : List JSString) (h : l ≠ []) :
    prependUnit u (l ++ m) = prependUnit u l ++ m := by
  cases l with
  | nil => exact absurd rfl h
  | cons t ts => rfl

theorem tokens_cons_boundary (b : Nat) (s : JSString) (hb : b ∈ boundaryChars) :
    tokens (b :: s) = [] :: tokens s := by
  rw [tokens, if_pos hb]

theorem tokens_cons_other (u : Nat) (s : JSString) (hu : u ∉ boundaryChars) :
    tokens (u :: s) = prependUnit u (tokens s) := by
  rw [tokens, if_neg hu]

theorem tokens_append (x : JSString) (b : Nat) (y : JSString) (hb : b ∈ boundaryChars) :
    tokens (x ++ b :: y) = tokens x ++ tokens y := by
  induction x with
  | nil =>
    rw [List.nil_append, tokens_cons_boundary b y hb]
    rfl
  | cons u x ih =>
    by_cases hu : u ∈ boundaryChars
    · rw [List.cons_append, tokens_cons_boundary u _ hu, tokens_cons_boundary u _ hu, ih]
      rfl
    · rw [List.cons_append, tokens_cons_other u _ hu, tokens_cons_other u _ hu, ih,
        prependUnit_append u _ _ (tokens_ne_nil x)]

theorem tokens_boundaryFree (t : JSString) (h : BoundaryFree t) : tokens t = [t] := by
  induction t with
  | nil => rfl
  | cons u t ih =>
    have hu : u ∉ boundaryChars := h u (by simp)
    have ht : BoundaryFree t := fun v hv => h v (List.mem_cons_of_mem _ hv)
    rw [tokens_cons_other u t hu, ih ht]
    rfl

theorem tokens_append_render (x : JSString) (segs : List (Nat × JSString))
    (hb : ∀ p ∈ segs, p.1 ∈ boundaryChars) :
    tokens (x ++ render segs) = tokens x ++ segs.flatMap fun p => tokens p.2 := by
  induction segs generalizing x with
  | nil => simp [render]
  | cons p segs ih =>
    obtain ⟨b, t⟩ := p
    have hbb : b ∈ boundaryChars := hb (b, t) (by simp)
    rw [render, tokens_append x b _ hbb, ih t (fun q hq => hb q (List.mem_cons_of_mem _ hq))]
    simp [List.flatMap]

/-! ## Scanning a line token by token -/

theorem isBoundary_congr (canon : Nat → Nat) (p c : Nat) (h : canon p = canon c) :
    isBoundary canon p = isBoundary canon c := by
  unfold isBoundary
  rw [h]

theorem not_isBoundary_of_not_mem (canon : Nat → Nat) (hc : FoldKeepsBoundaries canon)
    (c : Nat) (h : c ∉ boundaryChars) : isBoundary canon c = false := by
  cases hb : isBoundary canon c with
  | false => rfl
  | true => exact absurd (hc c hb) h

theorem boundaryChars_lt (b : Nat) (hb : b ∈ boundaryChars) : b < 0x10000 := by
  have h : ∀ x ∈ boundaryChars, x < 0x10000 := by decide
  exact h b hb

theorem codePoints_boundaryFree (t : JSString) (h : BoundaryFree t) :
    ∀ c ∈ stringToCodePoints t, c.codePoint ∉ boundaryChars := by
  induction t using stringToCodePoints.induct with
  | case1 => intro c hc; simp [stringToCodePoints] at hc
  | case2 u =>
    intro c hc
    simp only [stringToCodePoints, List.mem_singleton] at hc
    subst hc
    exact h u (by simp)
  | case3 hi lo rest hp ih =>
    intro c hc
    rw [stringToCodePoints_cons_cons, if_pos hp, List.mem_cons] at hc
    rcases hc with hc | hc
    · subst hc
      intro hmem
      have := boundaryChars_lt _ hmem
      simp only at this
      omega
    · exact ih (fun v hv => h v (by simp [hv])) c hc
  | case4 hi lo rest hp ih =>
    intro c hc
    rw [stringToCodePoints_cons_cons, if_neg hp, List.mem_cons] at hc
    rcases hc with hc | hc
    · subst hc
      exact h hi (by simp)
    · exact ih (fun v hv => h v (List.mem_cons_of_mem _ hv)) c hc

theorem abbrPattern_boundaryFree (canon : Nat → Nat) (hc : FoldKeepsBoundaries canon)
    (w : JSString) (h : BoundaryFree w) :
    ∀ p ∈ abbrPattern w, isBoundary canon p = false := by
  intro p hp
  unfold abbrPattern at hp
  rw [List.mem_map] at hp
  obtain ⟨c, hcm, rfl⟩ := hp
  exact not_isBoundary_of_not_mem canon hc _ (codePoints_boundaryFree w h c hcm)

theorem codePoints_not_boundary (canon : Nat → Nat) (hc : FoldKeepsBoundaries canon)
    (t : JSString) (h : BoundaryFree t) :
    ∀ c ∈ stringToCodePoints t, isBoundary canon c.codePoint = false :=
  fun c hcm => not_isBoundary_of_not_mem canon hc _ (codePoints_boundaryFree t h c hcm)

theorem matchTail_cons (canon : Nat → Nat) (p : Nat) (ps : List Nat) (c : CodePointAt)
    (s : List CodePointAt) :
    matchTail canon (p :: ps) (c :: s)
      = if canon p = canon c.codePoint then matchTail canon ps s else none := by
  unfold matchTail
  rw [matchLiteral]
  split_ifs <;> rfl

theorem matchTail_token (canon : Nat → Nat) (pat : List Nat) (x r : List CodePointAt)
    (hpat : ∀ p ∈ pat, isBoundary canon p = false)
    (hx : ∀ c ∈ x, isBoundary canon c.codePoint = false)
    (hr : lookaheadOk canon r = true) :
    matchTail canon pat (x ++ r) = if matchLiteral canon pat x = some [] then some r else none := by
  induction pat generalizing x with
  | nil =>
    cases x with
    | nil =>
      simp only [List.nil_append, matchLiteral, if_true]
      unfold matchTail
      simp only [matchLiteral, hr, if_true]
    | cons c x' =>
      have hcb := hx c (by simp)
      unfold matchTail
      simp [matchLiteral, lookaheadOk, hcb]
  | cons p ps ih =>
    have hp := hpat p (by simp)
    cases x with
    | nil =>
      simp only [List.nil_append, matchLiteral]
      cases r with
      | nil => simp [matchTail, matchLiteral]
      | cons b r' =>
        rw [matchTail_cons]
        have hbb : isBoundary canon b.codePoint = true := hr
        have hne : canon p ≠ canon b.codePoint := by
          intro heq
          rw [isBoundary_congr canon p b.codePoint heq, hbb] at hp
          exact absurd hp (by simp)
        simp [hne]
    | cons c x' =>
      rw [List.cons_append, matchTail_cons, matchLiteral]
      by_cases hpc : canon p = canon c.codePoint
      · simp only [hpc, if_true]
        exact ih x' (fun q hq => hpat q (List.mem_cons_of_mem _ hq))
          (fun q hq => hx q (List.mem_cons_of_mem _ hq))
      · simp only [hpc, if_false]
        simp

theorem matchLiteral_length (canon : Nat → Nat) (pat : List Nat) (x : List CodePointAt)
    (h : matchLiteral canon pat x = some []) : pat.length = x.length := by
  induction pat generalizing x with
  | nil =>
    simp only [matchLiteral, Option.some.injEq] at h
    subst h
    rfl
  | cons p ps ih =>
    cases x with
    | nil => simp [matchLiteral] at h
    | cons c x' =>
      rw [matchLiteral] at h
      split_ifs at h with hpc
      simp only [List.length_cons, ih x' h]

theorem matchHere_none_of_not_boundary (canon : Nat → Nat) (pat : List Nat) (c : CodePointAt)
    (s : List CodePointAt) (hc : isBoundary canon c.codePoint = false) :
    matchHere canon pat false (c :: s) = none := by
  unfold matchHere
  simp [hc]

theorem replaceLoop_copy (canon : Nat → Nat) (pat : List Nat) (e : JSString)
    (x r : List CodePointAt) (hx : ∀ c ∈ x, isBoundary canon c.codePoint = false) :
    replaceLoop canon pat e false 0 (x ++ r)
      = (unitsOf x ++ (replaceLoop canon pat e false 0 r).1,
         (replaceLoop canon pat e false 0 r).2) := by
  induction x with
  | nil => rfl
  | cons c x' ih =>
    rw [List.cons_append, replaceLoop_not_found canon pat e false c _
      (matchHere_none_of_not_boundary canon pat c _ (hx c (by simp))),
      ih (fun q hq => hx q (List.mem_cons_of_mem _ hq))]
    simp [unitsOf]

theorem matchHere_true_eq_false (canon : Nat → Nat) (pat : List Nat) (s : List CodePointAt)
    (h : matchTail canon pat s = none) :
    matchHere canon pat true s = matchHere canon pat false s := by
  unfold matchHere
  simp [h]

theorem replaceLoop_start_eq (canon : Nat → Nat) (pat : List Nat) (e : JSString)
    (s : List CodePointAt) (h : matchTail canon pat s = none) :
    replaceLoop canon pat e true 0 s = replaceLoop canon pat e false 0 s := by
  cases s with
  | nil => rw [replaceLoop, replaceLoop, matchHere_true_eq_false canon pat [] h]
  | cons c s' =>
    rw [replaceLoop, replaceLoop, matchHere_true_eq_false canon pat (c :: s') h]

theorem codePoints_append_render (t : JSString) (segs : List (Nat × JSString))
    (h : WellFormedSegs segs) :
    stringToCodePoints (t ++ render segs)
      = stringToCodePoints t ++ stringToCodePoints (render segs) := by
  cases segs with
  | nil => simp [render, stringToCodePoints]
  | cons p segs' =>
    obtain ⟨b, t'⟩ := p
    have hb := (h (b, t') (by simp)).1
    rw [render]
    exact stringToCodePoints_append t b _ (boundaryChars_not_surrogate b hb).2

theorem codePoints_render_cons (b : Nat) (t : JSString) (segs : List (Nat × JSString))
    (hb : b ∈ boundaryChars) (h : WellFormedSegs segs) :
    stringToCodePoints (render ((b, t) :: segs))
      = ⟨b, [b]⟩ :: (stringToCodePoints t ++ stringToCodePoints (render segs)) := by
  rw [render, stringToCodePoints_cons b _ (boundaryChars_not_surrogate b hb).1,
    codePoints_append_render t segs h]

theorem lookaheadOk_render (canon : Nat → Nat) (segs : List (Nat × JSString))
    (h : WellFormedSegs segs) :
    lookaheadOk canon (stringToCodePoints (render segs)) = true := by
  cases segs with
  | nil => rfl
  | cons p segs' =>
    obtain ⟨b, t'⟩ := p
    have hb := (h (b, t') (by simp)).1
    rw [codePoints_render_cons b t' segs' hb (fun q hq => h q (List.mem_cons_of_mem _ hq))]
    exact isBoundary_of_mem canon b hb

theorem tokenMatches_iff (canon : Nat → Nat) (abbr t : JSString) :
    tokenMatches canon abbr t = true
      ↔ matchLiteral canon (abbrPattern abbr) (stringToCodePoints t) = some [] := by
  unfold tokenMatches
  simp

theorem matchHere_boundary_none (canon : Nat → Nat) (pat : List Nat) (c : CodePointAt)
    (s : List CodePointAt) (h : matchTail canon pat s = none) :
    matchHere canon pat false (c :: s) = none := by
  unfold matchHere
  simp [h]

theorem replaceLoop_render (canon : Nat → Nat) (hc : FoldKeepsBoundaries canon) (rule : Rule)
    (hw : rule.abbr ≠ []) (hbf : BoundaryFree rule.abbr) (segs : List (Nat × JSString))
    (h : WellFormedSegs segs) :
    replaceLoop canon (abbrPattern rule.abbr) rule.expanded false 0
        (stringToCodePoints (render segs))
      = (render (segs.map fun p => (p.1, substToken canon rule p.2)),
         (segs.filter fun p => tokenMatches canon rule.abbr p.2).length) := by
  induction segs with
  | nil => exact replaceLoop_nil canon _ _ (abbrPattern_ne_nil rule.abbr hw) false
  | cons p segs ih =>
    obtain ⟨b, t⟩ := p
    have hwf : WellFormedSegs segs := fun q hq => h q (List.mem_cons_of_mem _ hq)
    obtain ⟨hb, ht⟩ := h (b, t) (by simp)
    have hB : isBoundary canon b = true := isBoundary_of_mem canon b hb
    have hmt := matchTail_token canon (abbrPattern rule.abbr) (stringToCodePoints t)
      (stringToCodePoints (render segs)) (abbrPattern_boundaryFree canon hc rule.abbr hbf)
      (codePoints_not_boundary canon hc t ht) (lookaheadOk_render canon segs hwf)
    rw [codePoints_render_cons b t segs hb hwf]
    by_cases hm : matchLiteral canon (abbrPattern rule.abbr) (stringToCodePoints t) = some []
    · have htm : tokenMatches canon rule.abbr t = true := (tokenMatches_iff canon _ _).2 hm
      rw [if_pos hm] at hmt
      rw [replaceLoop_found canon _ _ false _ _ _ _ (abbrPattern rule.abbr).length
        (matchHere_after_boundary canon _ ⟨b, [b]⟩ _ _ hB hmt)
        (by simp only [List.length_singleton]; omega),
        matchLiteral_length canon _ _ hm, replaceLoop_skip, ih hwf]
      simp [render, unitsOf, substToken, htm]
    · have htm : tokenMatches canon rule.abbr t = false := by
        cases h' : tokenMatches canon rule.abbr t with
        | false => rfl
        | true => exact absurd ((tokenMatches_iff canon _ _).1 h') hm
      rw [if_neg hm] at hmt
      rw [replaceLoop_not_found canon _ _ false _ _
        (matchHere_boundary_none canon _ ⟨b, [b]⟩ _ hmt),
        replaceLoop_copy canon _ _ _ _ (codePoints_not_boundary canon hc t ht), ih hwf,
        unitsOf_stringToCodePoints]
      simp [render, substToken, htm]

theorem replaceRule_render (canon : Nat → Nat) (hc : FoldKeepsBoundaries canon) (rule : Rule)
    (hw : rule.abbr ≠ []) (hbf : BoundaryFree rule.abbr) (t : JSString)
    (segs : List (Nat × JSString)) (ht : BoundaryFree t) (h : WellFormedSegs segs) :
    replaceRule canon rule (t ++ render segs)
      = (substToken canon rule t ++ render (segs.map fun p => (p.1, substToken canon rule p.2)),
         (if tokenMatches canon rule.abbr t then 1 else 0)
           + (segs.filter fun p => tokenMatches canon rule.abbr p.2).length) := by
  have hmt := matchTail_token canon (abbrPattern rule.abbr) (stringToCodePoints t)
    (stringToCodePoints (render segs)) (abbrPattern_boundaryFree canon hc rule.abbr hbf)
    (codePoints_not_boundary canon hc t ht) (lookaheadOk_render canon segs h)
  unfold replaceRule
  rw [codePoints_append_render t segs h]
  by_cases hm : matchLiteral canon (abbrPattern rule.abbr) (stringToCodePoints t) = some []
  · have htm : tokenMatches canon rule.abbr t = true := (tokenMatches_iff canon _ _).2 hm
    rw [if_pos hm] at hmt
    have hlen := matchLiteral_length canon _ _ hm
    have hpne := abbrPattern_ne_nil rule.abbr hw
    cases hx : stringToCodePoints t with
    | nil =>
      rw [hx, List.length_nil, List.length_eq_zero] at hlen
      exact absurd hlen hpne
    | cons c x' =>
      rw [hx] at hmt hlen
      have hmh : matchHere canon (abbrPattern rule.abbr) true
          (c :: (x' ++ stringToCodePoints (render segs)))
          = some ([], stringToCodePoints (render segs)) :=
        matchHere_at_start canon _ _ _ hmt
      rw [List.cons_append, replaceLoop_found canon _ _ true c _ _ _ x'.length hmh
        (by rw [hlen]; simp),
        replaceLoop_skip, replaceLoop_render canon hc rule hw hbf segs h]
      simp [unitsOf, substToken, htm]
      omega
  · have htm : tokenMatches canon rule.abbr t = false := by
      cases h' : tokenMatches canon rule.abbr t with
      | false => rfl
      | true => exact absurd ((tokenMatches_iff canon _ _).1 h') hm
    rw [if_neg hm] at hmt
    rw [replaceLoop_start_eq canon _ _ _ hmt,
      replaceLoop_copy canon _ _ _ _ (codePoints_not_boundary canon hc t ht),
      replaceLoop_render canon hc rule hw hbf segs h, unitsOf_stringToCodePoints]
    simp [substToken, htm]

theorem exists_render (s : JSString) :
    ∃ t segs, BoundaryFree t ∧ WellFormedSegs segs ∧ s = t ++ render segs := by
  induction s with
  | nil => exact ⟨[], [], fun _ h => absurd h (List.not_mem_nil _),
      fun _ h => absurd h (List.not_mem_nil _), rfl⟩
  | cons u s ih =>
    obtain ⟨t, segs, ht, hs, rfl⟩ := ih
    by_cases hu : u ∈ boundaryChars
    · refine ⟨[], (u, t) :: segs, fun _ h => absurd h (List.not_mem_nil _), ?_, rfl⟩
      intro p hp
      rcases List.mem_cons.1 hp with rfl | hp
      · exact ⟨hu, ht⟩
      · exact hs p hp
    · refine ⟨u :: t, segs, ?_, hs, rfl⟩
      intro v hv
      rcases List.mem_cons.1 hv with rfl | hv
      · exact hu
      · exact ht v hv

theorem tokens_render (t : JSString) (segs : List (Nat × JSString)) (ht : BoundaryFree t)
    (h : WellFormedSegs segs) :
    tokens (t ++ render segs) = t :: segs.map Prod.snd := by
  rw [tokens_append_render t segs (fun p hp => (h p hp).1), tokens_boundaryFree t ht]
  simp only [List.singleton_append, List.cons.injEq, true_and]
  induction segs with
  | nil => rfl
  | cons p segs ih =>
    rw [List.flatMap_cons, List.map_cons, tokens_boundaryFree p.2 (h p (by simp)).2,
      ih (fun q hq => h q (List.mem_cons_of_mem _ hq))]
    rfl

theorem render_map_id (segs : List (Nat × JSString)) (f : JSString → JSString)
    (h : ∀ p ∈ segs, f p.2 = p.2) : render (segs.map fun p => (p.1, f p.2)) = render segs := by
  induction segs with
  | nil => rfl
  | cons p segs ih =>
    rw [List.map_cons, render, h p (by simp), ih (fun q hq => h q (List.mem_cons_of_mem _ hq))]
    rfl

theorem mem_render_map (segs : List (Nat × JSString)) (f : JSString → JSString) (u : Nat)
    (h : u ∈ render (segs.map fun p => (p.1, f p.2))) :
    u ∈ render segs ∨ ∃ p ∈ segs, u ∈ f p.2 := by
  induction segs with
  | nil => simp [render] at h
  | cons p segs ih =>
    rw [List.map_cons, render, List.mem_cons, List.mem_append] at h
    rcases h with h | h | h
    · exact Or.inl (by rw [render]; simp [h])
    · exact Or.inr ⟨p, by simp, h⟩
    · rcases ih h with h' | ⟨q, hq, hu⟩
      · exact Or.inl (by rw [render]; simp [h'])
      · exact Or.inr ⟨q, List.mem_cons_of_mem _ hq, hu⟩

theorem mem_substToken (canon : Nat → Nat) (rule : Rule) (t : JSString) (u : Nat)
    (h : u ∈ substToken canon rule t) : u ∈ t ∨ u ∈ rule.expanded := by
  unfold substToken at h
  split_ifs at h
  · exact Or.inr h
  · exact Or.inl h

theorem mem_render_of_mem_piece (segs : List (Nat × JSString)) (p : Nat × JSString)
    (hp : p ∈ segs) (u : Nat) (hu : u ∈ p.2) : u ∈ render segs := by
  induction segs with
  | nil => exact absurd hp (List.not_mem_nil _)
  | cons q segs ih =>
    rw [render]
    rcases List.mem_cons.1 hp with rfl | hp
    · simp [hu]
    · simp [ih hp]

/-- Under a boundary-preserving folding, a rule with a non-empty abbreviation free of
boundary characters rewrites a line token by token. -/
theorem replaceRule_tokens (canon : Nat → Nat) (hc : FoldKeepsBoundaries canon) (rule : Rule)
    (hw : rule.abbr ≠ []) (hbf : BoundaryFree rule.abbr) (s : JSString) :
    ((replaceRule canon rule s).2 = 0
      ↔ ∀ t ∈ tokens s, tokenMatches canon rule.abbr t = false) ∧
    (∀ t ∈ tokens (replaceRule canon rule s).1,
      (t ∈ tokens s ∧ tokenMatches canon rule.abbr t = false) ∨ t ∈ tokens rule.expanded) ∧
    ((∀ t ∈ tokens s, tokenMatches canon rule.abbr t = false) →
      replaceRule canon rule s = (s, 0)) ∧
    (∀ u ∈ (replaceRule canon rule s).1, u ∈ s ∨ u ∈ rule.expanded) := by
  obtain ⟨t₀, segs, ht, hs, rfl⟩ := exists_render s
  rw [replaceRule_render canon hc rule hw hbf t₀ segs ht hs, tokens_render t₀ segs ht hs]
  have hbs : ∀ p ∈ segs.map (fun p => (p.1, substToken canon rule p.2)), p.1 ∈ boundaryChars := by
    intro p hp
    rw [List.mem_map] at hp
    obtain ⟨q, hq, rfl⟩ := hp
    exact (hs q hq).1
  have hid : (∀ t ∈ t₀ :: segs.map Prod.snd, tokenMatches canon rule.abbr t = false) →
      substToken canon rule t₀ = t₀ ∧
      render (segs.map fun p => (p.1, substToken canon rule p.2)) = render segs ∧
      (segs.filter fun p => tokenMatches canon rule.abbr p.2) = [] := by
    intro hall
    refine ⟨by simp [substToken, hall t₀ (by simp)], ?_, ?_⟩
    · apply render_map_id
      intro p hp
      have : tokenMatches canon rule.abbr p.2 = false :=
        hall p.2 (List.mem_cons_of_mem _ (List.mem_map_of_mem _ hp))
      simp [substToken, this]
    · rw [List.filter_eq_nil_iff]
      intro p hp
      have : tokenMatches canon rule.abbr p.2 = false :=
        hall p.2 (List.mem_cons_of_mem _ (List.mem_map_of_mem _ hp))
      simp [this]
  refine ⟨⟨?_, ?_⟩, ?_, ?_, ?_⟩
  · intro h0 t htm
    simp only at h0
    have h1 : (if tokenMatches canon rule.abbr t₀ = true then 1 else 0) = 0 := by omega
    have h2 : (segs.filter fun p => tokenMatches canon rule.abbr p.2).length = 0 := by omega
    rcases List.mem_cons.1 htm with rfl | htm
    · by_contra hne
      simp only [Bool.not_eq_false] at hne
      simp [hne] at h1
    · rw [List.mem_map] at htm
      obtain ⟨p, hp, rfl⟩ := htm
      rw [List.length_eq_zero, List.filter_eq_nil_iff] at h2
      have := h2 p hp
      simpa using this
  · intro hall
    obtain ⟨_, _, h3⟩ := hid hall
    simp [hall t₀ (by simp), h3]
  · intro t htm
    simp only at htm
    rw [tokens_append_render _ _ hbs, List.mem_append] at htm
    rcases htm with htm | htm
    · unfold substToken at htm
      by_cases hm : tokenMatches canon rule.abbr t₀ = true
      · rw [if_pos hm] at htm
        exact Or.inr htm
      · rw [if_neg hm, tokens_boundaryFree t₀ ht, List.mem_singleton] at htm
        subst htm
        exact Or.inl ⟨by simp, by simpa using hm⟩
    · rw [List.mem_flatMap] at htm
      obtain ⟨q, hq, hmem⟩ := htm
      rw [List.mem_map] at hq
      obtain ⟨p, hp, rfl⟩ := hq
      simp only at hmem
      unfold substToken at hmem
      by_cases hm : tokenMatches canon rule.abbr p.2 = true
      · rw [if_pos hm] at hmem
        exact Or.inr hmem
      · rw [if_neg hm, tokens_boundaryFree p.2 (hs p hp).2, List.mem_singleton] at hmem
        subst hmem
        exact Or.inl ⟨List.mem_cons_of_mem _ (List.mem_map_of_mem _ hp), by simpa using hm⟩
  · intro hall
    obtain ⟨h1, h2, h3⟩ := hid hall
    rw [h1, h2, h3]
    simp [hall t₀ (by simp)]
  · intro u hu
    simp only at hu
    rw [List.mem_append] at hu
    rcases hu with hu | hu
    · rcases mem_substToken canon rule t₀ u hu with h | h
      · exact Or.inl (List.mem_append_left _ h)
      · exact Or.inr h
    · rcases mem_render_map segs _ u hu with h | ⟨p, hp, h⟩
      · exact Or.inl (List.mem_append_right _ h)
      · rcases mem_substToken canon rule p.2 u h with h' | h'
        · exact Or.inl (List.mem_append_right _ (mem_render_of_mem_piece segs p hp u h'))
        · exact Or.inr h'

/-! ## A second run of the bulk pass -/

theorem applyRules_append_singleton (canon : Nat → Nat) (l : List Rule) (r : Rule)
    (line : JSString) :
    applyRules canon (l ++ [r]) line
      = ((replaceRule canon r (applyRules canon l line).1).1,
         (applyRules canon l line).2 + (replaceRule canon r (applyRules canon l line).1).2) := by
  unfold applyRules
  rw [List.foldl_append]
  rfl

theorem tokens_expansion_unmatched (canon : Nat → Nat) (hc : FoldKeepsBoundaries canon)
    (rules : List Rule)
    (hrules : ∀ r ∈ rules, r.abbr ≠ [] ∧ BoundaryFree r.abbr ∧
      ∀ r' ∈ rules, (replaceRule canon r r'.expanded).2 = 0)
    (r' : Rule) (hr' : r' ∈ rules) (t : JSString) (ht : t ∈ tokens r'.expanded)
    (r : Rule) (hr : r ∈ rules) : tokenMatches canon r.abbr t = false := by
  obtain ⟨hw, hbf, h0⟩ := hrules r hr
  exact (replaceRule_tokens canon hc r hw hbf r'.expanded).1.1 (h0 r' hr') t ht

theorem tokens_applyRules_unmatched (canon : Nat → Nat) (hc : FoldKeepsBoundaries canon)
    (rules : List Rule)
    (hrules : ∀ r ∈ rules, r.abbr ≠ [] ∧ BoundaryFree r.abbr ∧
      ∀ r' ∈ rules, (replaceRule canon r r'.expanded).2 = 0)
    (l : List Rule) (hl : ∀ r ∈ l, r ∈ rules) (line : JSString) :
    ∀ t ∈ tokens (applyRules canon l line).1, ∀ r ∈ l, tokenMatches canon r.abbr t = false := by
  induction l using List.reverseRecOn with
  | nil =>
    intro t _ r hr
    exact absurd hr (List.not_mem_nil _)
  | append_singleton l a ih =>
    have hl' : ∀ r ∈ l, r ∈ rules := fun r hr => hl r (List.mem_append_left _ hr)
    have ha : a ∈ rules := hl a (by simp)
    obtain ⟨hw, hbf, _⟩ := hrules a ha
    intro t ht r hr
    rw [applyRules_append_singleton] at ht
    rcases (replaceRule_tokens canon hc a hw hbf _).2.1 t ht with ⟨hprev, hna⟩ | hexp
    · rcases List.mem_append.1 hr with hr | hr
      · exact ih hl' t hprev r hr
      · rw [List.mem_singleton] at hr
        subst hr
        exact hna
    · exact tokens_expansion_unmatched canon hc rules hrules a ha t hexp r (hl r hr)

theorem applyRules_of_unmatched (canon : Nat → Nat) (hc : FoldKeepsBoundaries canon)
    (l : List Rule) (hl : ∀ r ∈ l, r.abbr ≠ [] ∧ BoundaryFree r.abbr) (s : JSString)
    (h : ∀ t ∈ tokens s, ∀ r ∈ l, tokenMatches canon r.abbr t = false) :
    applyRules canon l s = (s, 0) := by
  induction l using List.reverseRecOn with
  | nil => rfl
  | append_singleton l a ih =>
    have ih' := ih (fun r hr => hl r (List.mem_append_left _ hr))
      (fun t ht r hr => h t ht r (List.mem_append_left _ hr))
    obtain ⟨hw, hbf⟩ := hl a (by simp)
    rw [applyRules_append_singleton, ih']
    simp only
    rw [(replaceRule_tokens canon hc a hw hbf s).2.2.1 (fun t ht => h t ht a (by simp))]
    rfl

/-- The rule pipeline applied to its own output changes nothing and replaces nothing. -/
theorem applyRules_idempotent (canon : Nat → Nat) (hc : FoldKeepsBoundaries canon)
    (rules : List Rule)
    (hrules : ∀ r ∈ rules, r.abbr ≠ [] ∧ BoundaryFree r.abbr ∧
      ∀ r' ∈ rules, (replaceRule canon r r'.expanded).2 = 0)
    (line : JSString) :
    applyRules canon rules (rewriteLine canon rules line) = (rewriteLine canon rules line, 0) :=
  applyRules_of_unmatched canon hc rules (fun r hr => ⟨(hrules r hr).1, (hrules r hr).2.1⟩) _
    (tokens_applyRules_unmatched canon hc rules hrules rules (fun _ h => h) line)

theorem mem_applyRules (canon : Nat → Nat) (hc : FoldKeepsBoundaries canon) (l : List Rule)
    (hl : ∀ r ∈ l, r.abbr ≠ [] ∧ BoundaryFree r.abbr) (s : JSString) :
    ∀ u ∈ (applyRules canon l s).1, u ∈ s ∨ ∃ r ∈ l, u ∈ r.expanded := by
  induction l using List.reverseRecOn with
  | nil => intro u hu; exact Or.inl hu
  | append_singleton l a ih =>
    obtain ⟨hw, hbf⟩ := hl a (by simp)
    intro u hu
    rw [applyRules_append_singleton] at hu
    rcases (replaceRule_tokens canon hc a hw hbf _).2.2.2 u hu with h | h
    · rcases ih (fun r hr => hl r (List.mem_append_left _ hr)) u h with h' | ⟨r, hr, h'⟩
      · exact Or.inl h'
      · exact Or.inr ⟨r, List.mem_append_left _ hr, h'⟩
    · exact Or.inr ⟨a, by simp, h⟩

theorem rewriteLine_noLineBreak (canon : Nat → Nat) (hc : FoldKeepsBoundaries canon)
    (l : List Rule) (hl : ∀ r ∈ l, r.abbr ≠ [] ∧ BoundaryFree r.abbr)
    (he : ∀ r ∈ l, NoLineBreak r.expanded) (s : JSString) (hs : NoLineBreak s) :
    NoLineBreak (rewriteLine canon l s) := by
  intro u hu
  rcases mem_applyRules canon hc l hl s u hu with h | ⟨r, hr, h⟩
  · exact hs u h
  · exact he r hr u h

theorem set_getD_self (l : List JSString) (i : Nat) : l.set i (l.getD i []) = l := by
  apply List.ext_getElem?
  intro j
  rw [List.getElem?_set]
  by_cases hij : i = j
  · subst hij
    rw [if_pos rfl]
    by_cases hi : i < l.length
    · rw [if_pos hi, List.getD_eq_getElem?_getD, List.getElem?_eq_getElem hi]
      rfl
    · rw [if_neg hi, List.getElem?_eq_none (by omega)]
  · rw [if_neg hij]

theorem bulkLineStep_lines_set (canon : Nat → Nat) (rules : List Rule) (cursor : Pos)
    (st : BulkState) (i : Nat) (hi : i < st.editor.lines.length)
    (hnb : NoLineBreak (rewriteLine canon rules (st.editor.getLine i))) :
    (bulkLineStep canon rules cursor st i).editor.lines
      = st.editor.lines.set i (rewriteLine canon rules (st.editor.getLine i)) := by
  rw [bulkLineStep_lines]
  unfold rewriteLine at hnb ⊢
  split_ifs with hchg
  · unfold Editor.replaceRange
    simp only [List.take_zero, List.nil_append, List.drop_length, List.append_nil]
    rw [splitLines_of_no_break _ hnb, List.set_eq_take_append_cons_drop, if_pos hi]
    simp
  · simp only [ne_eq, not_not] at hchg
    rw [hchg]
    exact (set_getD_self _ i).symm

theorem getLine_mem (ed : Editor) (i : Nat) (hi : i < ed.lines.length) :
    ed.getLine i ∈ ed.lines := by
  unfold Editor.getLine
  rw [List.getD_eq_getElem _ _ hi]
  exact List.getElem_mem hi

theorem bulkStateBefore_zero (canon : Nat → Nat) (rules : List Rule) (cursor : Pos)
    (editor : Editor) :
    bulkStateBefore canon rules cursor editor 0 = { editor := editor, replacedCount := 0 } := rfl

theorem bulkStateBefore_lines (canon : Nat → Nat) (hc : FoldKeepsBoundaries canon)
    (rules : List Rule) (hl : ∀ r ∈ rules, r.abbr ≠ [] ∧ BoundaryFree r.abbr)
    (he : ∀ r ∈ rules, NoLineBreak r.expanded) (cursor : Pos) (editor : Editor)
    (hlines : ∀ l ∈ editor.lines, NoLineBreak l) (i : Nat) (hi : i ≤ editor.lines.length) :
    (bulkStateBefore canon rules cursor editor i).editor.lines.length = editor.lines.length ∧
    ∀ j, (bulkStateBefore canon rules cursor editor i).editor.lines[j]?
      = if j < i then (editor.lines[j]?).map (rewriteLine canon rules) else editor.lines[j]? := by
  induction i with
  | zero =>
    rw [bulkStateBefore_zero]
    exact ⟨rfl, fun j => by simp⟩
  | succ i ih =>
    obtain ⟨hlen, hget⟩ := ih (by omega)
    have hi' : i < editor.lines.length := by omega
    have hline : (bulkStateBefore canon rules cursor editor i).editor.getLine i
        = editor.getLine i := by
      unfold Editor.getLine
      rw [List.getD_eq_getElem?_getD, List.getD_eq_getElem?_getD, hget i, if_neg (by omega)]
    have hnb : NoLineBreak (rewriteLine canon rules
        ((bulkStateBefore canon rules cursor editor i).editor.getLine i)) := by
      rw [hline]
      exact rewriteLine_noLineBreak canon hc rules hl he _
        (hlines _ (getLine_mem editor i hi'))
    rw [bulkStateBefore_succ, bulkLineStep_lines_set canon rules cursor _ i (by omega) hnb,
      hline]
    refine ⟨by rw [List.length_set, hlen], fun j => ?_⟩
    rw [List.getElem?_set, hlen, if_pos hi']
    by_cases hij : i = j
    · subst hij
      rw [if_pos rfl, if_pos (by omega)]
      unfold Editor.getLine
      rw [List.getD_eq_getElem _ _ hi', List.getElem?_eq_getElem hi']
      rfl
    · rw [if_neg hij, hget j]
      by_cases hj : j < i
      · rw [if_pos hj, if_pos (by omega)]
      · rw [if_neg hj, if_neg (by omega)]

/-- While no line break is inserted, the line read when iteration `i` begins is line `i` of
the document as it was before the pass. -/
theorem bulkStateBefore_getLine (canon : Nat → Nat) (hc : FoldKeepsBoundaries canon)
    (rules : List Rule) (hl : ∀ r ∈ rules, r.abbr ≠ [] ∧ BoundaryFree r.abbr)
    (he : ∀ r ∈ rules, NoLineBreak r.expanded) (cursor : Pos) (editor : Editor)
    (hlines : ∀ l ∈ editor.lines, NoLineBreak l) (i : Nat) (hi : i ≤ editor.lines.length) :
    (bulkStateBefore canon rules cursor editor i).editor.getLine i = editor.getLine i := by
  obtain ⟨_, hget⟩ := bulkStateBefore_lines canon hc rules hl he cursor editor hlines i hi
  unfold Editor.getLine
  rw [List.getD_eq_getElem?_getD, List.getD_eq_getElem?_getD, hget i, if_neg (by omega)]

theorem bulkStateBefore_map (canon : Nat → Nat) (hc : FoldKeepsBoundaries canon)
    (rules : List Rule) (hl : ∀ r ∈ rules, r.abbr ≠ [] ∧ BoundaryFree r.abbr)
    (he : ∀ r ∈ rules, NoLineBreak r.expanded) (cursor : Pos) (editor : Editor)
    (hlines : ∀ l ∈ editor.lines, NoLineBreak l) :
    (bulkStateBefore canon rules cursor editor editor.lines.length).editor.lines
      = editor.lines.map (rewriteLine canon rules) := by
  obtain ⟨_, hget⟩ := bulkStateBefore_lines canon hc rules hl he cursor editor hlines
    editor.lines.length (le_refl _)
  apply List.ext_getElem?
  intro j
  rw [hget j, List.getElem?_map]
  by_cases hj : j < editor.lines.length
  · rw [if_pos hj]
  · rw [if_neg hj, List.getElem?_eq_none (by omega)]
    rfl

theorem bulkLineStep_fixed (canon : Nat → Nat) (rules : List Rule) (cursor : Pos)
    (editor : Editor) (n i : Nat)
    (h : applyRules canon rules (editor.getLine i) = (editor.getLine i, 0)) :
    bulkLineStep canon rules cursor { editor := editor, replacedCount := n } i
      = { editor := editor, replacedCount := n } := by
  unfold bulkLineStep
  simp only [h, ne_eq, not_true_eq_false, if_false, Nat.add_zero]

theorem bulkStateBefore_fixed (canon : Nat → Nat) (rules : List Rule) (cursor : Pos)
    (editor : Editor) (h : ∀ l ∈ editor.lines, applyRules canon rules l = (l, 0)) (i : Nat)
    (hi : i ≤ editor.lines.length) :
    bulkStateBefore canon rules cursor editor i = { editor := editor, replacedCount := 0 } := by
  induction i with
  | zero => rfl
  | succ i ih =>
    rw [bulkStateBefore_succ, ih (by omega)]
    exact bulkLineStep_fixed canon rules cursor editor 0 i
      (h _ (getLine_mem editor i (by omega)))

theorem mem_sortRules (rules : List Rule) (r : Rule) : r ∈ sortRules rules ↔ r ∈ rules := by
  unfold sortRules
  exact (List.perm_insertionSort _ rules).mem_iff

theorem foldKeepsBoundaries_simpleFold : FoldKeepsBoundaries simpleFold := by
  intro c h
  unfold isBoundary at h
  rw [List.any_eq_true] at h
  obtain ⟨a, ha, hac⟩ := h
  have hfix : ∀ x ∈ boundaryChars, simpleFold x = x := by decide
  have hrange : ∀ x ∈ boundaryChars,
      ¬ (0x61 ≤ x ∧ x ≤ 0x7A) ∧ ¬ (0x430 ≤ x ∧ x ≤ 0x45F) := by decide
  have hx := hrange a ha
  simp only [beq_iff_eq] at hac
  rw [hfix a ha] at hac
  unfold simpleFold at hac
  split_ifs at hac with h1 h2 h3
  · omega
  · omega
  · omega
  · rw [← hac]
    exact ha

/-- C4, the claim refuted: the only rule is АГ 1 → АГ, whose expansion no rule matches; the
first run turns the line `АГ 1 1` into `АГ 1` and the second run replaces once more. -/
theorem bulk_second_run_replaces_again :
    (replaceRule simpleFold
      { abbr := utf16 "АГ 1", expanded := utf16 "АГ", folder := [], manualOnly := true }
      (utf16 "АГ")).2 = 0 ∧
    (replaceManualInCurrentNote simpleFold
        { autoReplace := true,
          replacements := [{ abbr := utf16 "АГ 1", expanded := utf16 "АГ", folder := [],
                             manualOnly := true }] }
        { lines := [utf16 "АГ 1 1"], cursor := { line := 0, ch := 0 } }
        (some { path := utf16 "день.md" })).editor.lines = [utf16 "АГ 1"] ∧
    (replaceManualInCurrentNote simpleFold
        { autoReplace := true,
          replacements := [{ abbr := utf16 "АГ 1", expanded := utf16 "АГ", folder := [],
                             manualOnly := true }] }
        (replaceManualInCurrentNote simpleFold
          { autoReplace := true,
            replacements := [{ abbr := utf16 "АГ 1", expanded := utf16 "АГ", folder := [],
                               manualOnly := true }] }
          { lines := [utf16 "АГ 1 1"], cursor := { line := 0, ch := 0 } }
          (some { path := utf16 "день.md" })).editor
        (some { path := utf16 "день.md" })).replacedCount = 1 := by
  decide

/-- A rule whose expansion it matches itself (АД → АД (давление)) is replaced again by the
second run, although no other rule exists. -/
theorem bulk_second_run_self_rematch :
    (replaceManualInCurrentNote simpleFold
        { autoReplace := true,
          replacements := [{ abbr := utf16 "АД", expanded := utf16 "АД (давление)", folder := [],
                             manualOnly := true }] }
        (replaceManualInCurrentNote simpleFold
          { autoReplace := true,
            replacements := [{ abbr := utf16 "АД", expanded := utf16 "АД (давление)",
                               folder := [], manualOnly := true }] }
          { lines := [utf16 "АД"], cursor := { line := 0, ch := 0 } }
          (some { path := utf16 "день.md" })).editor
        (some { path := utf16 "день.md" })).replacedCount = 1 := by
  decide

/-- An expansion with a line break makes the first run skip the last line of the document,
which the second run then rewrites. -/
theorem bulk_second_run_after_line_break :
    (replaceManualInCurrentNote simpleFold
        { autoReplace := true,
          replacements := [{ abbr := utf16 "АД", expanded := utf16 "давление\nартериальное",
                             folder := [], manualOnly := true }] }
        { lines := [utf16 "АД", utf16 "АД"], cursor := { line := 0, ch := 0 } }
        (some { path := utf16 "день.md" })).editor.lines
      = [utf16 "давление", utf16 "артериальное", utf16 "АД"] ∧
    (replaceManualInCurrentNote simpleFold
        { autoReplace := true,
          replacements := [{ abbr := utf16 "АД", expanded := utf16 "давление\nартериальное",
                             folder := [], manualOnly := true }] }
        (replaceManualInCurrentNote simpleFold
          { autoReplace := true,
            replacements := [{ abbr := utf16 "АД", expanded := utf16 "давление\nартериальное",
                               folder := [], manualOnly := true }] }
          { lines := [utf16 "АД", utf16 "АД"], cursor := { line := 0, ch := 0 } }
          (some { path := utf16 "день.md" })).editor
        (some { path := utf16 "день.md" })).replacedCount = 1 := by
  decide

/-- A rule with an empty abbreviation, whose expansion it does not match, is applied again
by the second run. -/
theorem bulk_second_run_empty_abbr :
    (replaceRule simpleFold { abbr := [], expanded := utf16 "x", folder := [], manualOnly := true }
      (utf16 "x")).2 = 0 ∧
    (replaceManualInCurrentNote simpleFold
        { autoReplace := true,
          replacements := [{ abbr := [], expanded := utf16 "x", folder := [], manualOnly := true }] }
        (replaceManualInCurrentNote simpleFold
          { autoReplace := true,
            replacements := [{ abbr := [], expanded := utf16 "x", folder := [],
                               manualOnly := true }] }
          { lines := [utf16 " "], cursor := { line := 0, ch := 0 } }
          (some { path := utf16 "день.md" })).editor
        (some { path := utf16 "день.md" })).replacedCount = 1 := by
  decide

/-- C4 as amended: let the case folding identify no other character with a boundary
character, let every applicable manual rule have a non-empty abbreviation without boundary
characters and an expansion without line breaks, let no applicable rule match inside the
expansion of any applicable rule, its own included, and let the lines of the document hold
no line break.  Then the first run rewrites every line with the rule pipeline, and a second
run on the resulting document replaces nothing: its replaced count is 0 and it leaves the
document as it is. -/
theorem bulk_second_run_replaces_nothing (canon : Nat → Nat) (settings : Settings)
    (editor : Editor) (f : TFile) (hc : FoldKeepsBoundaries canon)
    (hrules : ∀ r ∈ settings.replacements, isApplicable f r = true →
      r.abbr ≠ [] ∧ BoundaryFree r.abbr ∧ NoLineBreak r.expanded ∧
      ∀ r' ∈ settings.replacements, isApplicable f r' = true →
        (replaceRule canon r r'.expanded).2 = 0)
    (hlines : ∀ l ∈ editor.lines, NoLineBreak l) :
    (replaceManualInCurrentNote canon settings
      (replaceManualInCurrentNote canon settings editor (some f)).editor
      (some f)).replacedCount = 0 ∧
    (replaceManualInCurrentNote canon settings
      (replaceManualInCurrentNote canon settings editor (some f)).editor
      (some f)).editor
      = (replaceManualInCurrentNote canon settings editor (some f)).editor ∧
    (replaceManualInCurrentNote canon settings editor (some f)).editor.lines
      = editor.lines.map
          (rewriteLine canon (sortRules (settings.replacements.filter (isApplicable f)))) := by
  by_cases happ : settings.replacements.filter (isApplicable f) = []
  · have h1 : replaceManualInCurrentNote canon settings editor (some f)
        = { editor := editor, replacedCount := 0, notice := some Notice.noManualRules } := by
      unfold replaceManualInCurrentNote
      simp [happ]
    have h2 : sortRules (settings.replacements.filter (isApplicable f)) = [] := by
      rw [happ]
      rfl
    rw [h1]
    simp only
    rw [h1, h2]
    refine ⟨rfl, rfl, ?_⟩
    have : rewriteLine canon [] = id := by
      funext l
      rfl
    rw [this, List.map_id]
  · have hmem : ∀ r, r ∈ sortRules (settings.replacements.filter (isApplicable f)) →
        r ∈ settings.replacements ∧ isApplicable f r = true := by
      intro r hr
      rw [mem_sortRules, List.mem_filter] at hr
      exact hr
    have hmem' : ∀ r, r ∈ settings.replacements → isApplicable f r = true →
        r ∈ sortRules (settings.replacements.filter (isApplicable f)) := by
      intro r hr ha
      rw [mem_sortRules, List.mem_filter]
      exact ⟨hr, ha⟩
    have hR : ∀ r ∈ sortRules (settings.replacements.filter (isApplicable f)),
        r.abbr ≠ [] ∧ BoundaryFree r.abbr ∧
        ∀ r' ∈ sortRules (settings.replacements.filter (isApplicable f)),
          (replaceRule canon r r'.expanded).2 = 0 := by
      intro r hr
      obtain ⟨h1, h2⟩ := hmem r hr
      obtain ⟨a, b, _, d⟩ := hrules r h1 h2
      exact ⟨a, b, fun r' hr' => d r' (hmem r' hr').1 (hmem r' hr').2⟩
    have hE : ∀ r ∈ sortRules (settings.replacements.filter (isApplicable f)),
        NoLineBreak r.expanded := by
      intro r hr
      obtain ⟨h1, h2⟩ := hmem r hr
      exact (hrules r h1 h2).2.2.1
    have hfirst := (replaceManualInCurrentNote_eq canon settings editor f happ).1
    have hlines1 : (replaceManualInCurrentNote canon settings editor (some f)).editor.lines
        = editor.lines.map
            (rewriteLine canon (sortRules (settings.replacements.filter (isApplicable f)))) := by
      rw [hfirst]
      exact bulkStateBefore_map canon hc _ (fun r hr => ⟨(hR r hr).1, (hR r hr).2.1⟩) hE
        editor.cursor editor hlines
    have hfix : ∀ l ∈ (replaceManualInCurrentNote canon settings editor (some f)).editor.lines,
        applyRules canon (sortRules (settings.replacements.filter (isApplicable f))) l
          = (l, 0) := by
      intro l hl
      rw [hlines1, List.mem_map] at hl
      obtain ⟨l0, _, rfl⟩ := hl
      exact applyRules_idempotent canon hc _ hR l0
    obtain ⟨hs1, hs2⟩ := replaceManualInCurrentNote_eq canon settings
      (replaceManualInCurrentNote canon settings editor (some f)).editor f happ
    have hst := bulkStateBefore_fixed canon
      (sortRules (settings.replacements.filter (isApplicable f)))
      (replaceManualInCurrentNote canon settings editor (some f)).editor.cursor
      (replaceManualInCurrentNote canon settings editor (some f)).editor hfix
      (replaceManualInCurrentNote canon settings editor (some f)).editor.lineCount (le_refl _)
    rw [hs1, hs2, hst]
    exact ⟨rfl, rfl, hlines1⟩

/-- Witness for C4 as amended: the rules АГ → Артериальная гипертензия and
АД → Артериальное давление on a two-line document. -/
theorem bulk_second_run_replaces_nothing_witness :
    (replaceManualInCurrentNote simpleFold
      { autoReplace := true,
        replacements := [ruleAG, { abbr := utf16 "АД", expanded := utf16 "Артериальное давление",
                                   folder := [], manualOnly := true }] }
      (replaceManualInCurrentNote simpleFold
        { autoReplace := true,
          replacements := [ruleAG, { abbr := utf16 "АД",
                                     expanded := utf16 "Артериальное давление",
                                     folder := [], manualOnly := true }] }
        { lines := [utf16 "пациент с АГ.", utf16 "АД, АГ"], cursor := { line := 1, ch := 2 } }
        (some { path := utf16 "день.md" })).editor
      (some { path := utf16 "день.md" })).replacedCount = 0 :=
  (bulk_second_run_replaces_nothing simpleFold
    { autoReplace := true,
      replacements := [ruleAG, { abbr := utf16 "АД", expanded := utf16 "Артериальное давление",
                                 folder := [], manualOnly := true }] }
    { lines := [utf16 "пациент с АГ.", utf16 "АД, АГ"], cursor := { line := 1, ch := 2 } }
    { path := utf16 "день.md" } foldKeepsBoundaries_simpleFold (by decide) (by decide)).1

end AutoReplace
